import Mathlib

/-!
# broker: message heartbeat and SQS subscription session

A shallow embedding of `message.go` (NewMessage, its heartbeat goroutine, Message.Ack)
and of `sqs.go` (sqsBroker.Subscribe: poller goroutine, worker goroutines, errgroup join).

Goroutines are embedded as program counters that advance by labelled actions; the
scheduler and the outside world (queue service replies, handler behaviour, the caller
cancelling its context, passage of time) choose the action. Channels are FIFO lists
with a capacity; a send is enabled only while the list is shorter than the capacity,
a receive only while it is non-empty.
-/

namespace Broker

/-! ## message.go -/

/-- A Go `error` value; the code only observes its `Error()` text. -/
structure GoError where
  text : String
deriving DecidableEq, Repr

/-- A Go `error` result: `none` is `nil`. -/
abbrev Err := Option GoError

/-- The value `context.Canceled`, whose text is "context canceled". -/
def contextCanceled : GoError := ⟨"context canceled"⟩

/-- The Go function `strings.HasSuffix`:
`len(s) >= len(suffix) && s[len(s)-len(suffix):] == suffix`, on the characters of the
text (for UTF-8 text and an ASCII suffix this agrees with the comparison of bytes). -/
def HasSuffix (s suffix : String) : Bool :=
  decide (suffix.length ≤ s.length) && (s.data.drop (s.length - suffix.length) == suffix.data)

/-- Calls made on behalf of one message, in the order they are issued. -/
inductive Event
  /-- `m.visibilityFunctionCancel()` ran (message.go line 64). -/
  | cancel
  /-- `m.ack()` ran (message.go line 65). -/
  | ack
  /-- `changeVisibility(vc, timeout)` was called at time `time`;
  `ctxDone` tells whether `vc` was already cancelled when the call was issued. -/
  | extend (time : Nat) (ctxDone : Bool) (timeout : Int)
deriving DecidableEq, Repr

/-- Program counter of the heartbeat goroutine of `NewMessage` (message.go lines 41-54). -/
inductive HbPc
  /-- Blocked in the `select` of line 43; the timer of `time.After(20 * time.Second)`
  created on entry fires at `deadline`. -/
  | select (deadline : Nat)
  /-- The timer case of line 46 was taken; `changeVisibility` of line 47 is about to be called. -/
  | wake
  /-- At line 49, `errorSub <- err`, with `err = e`. -/
  | send (e : GoError)
  /-- The goroutine returned (line 45). -/
  | returned
deriving DecidableEq, Repr

/-- What belongs to one message: its context `vc`, its heartbeat goroutine and the
trace of calls made for it. -/
structure MsgState where
  /-- Whether `vc.Done()` is closed. -/
  vcDone : Bool
  pc : HbPc
  trace : List Event
deriving DecidableEq, Repr

/-- The struct `Message`. The capability `ack` acts on the state of the message. -/
structure Message where
  body : String
  ack : MsgState → Err × MsgState
  groupId : String
  visibilityFunctionCancel : MsgState → MsgState

/-- The heartbeat interval, `20 * time.Second` (message.go line 46). -/
def heartbeatInterval : Nat := 20

/-- The timeout passed to `changeVisibility`, `int32(30)` (message.go line 47). -/
def renewedTimeout : Int := 30

/-- The `cancel` function returned by `context.WithCancel` (line 39): closes `vc.Done()`. -/
def cancelFunc (st : MsgState) : MsgState :=
  { st with vcDone := true, trace := st.trace ++ [Event.cancel] }

/-- An acknowledge capability that records its invocation and returns `r`. -/
def ackCap (r : Err) (st : MsgState) : Err × MsgState :=
  (r, { st with trace := st.trace ++ [Event.ack] })

/-- `NewMessage` called at time `now` (message.go lines 32-57): a fresh context, a
heartbeat goroutine entering its `select`, and the `Message` value. The parameters
`changeVisibility` and `errorSub` are used by the goroutine only; they appear in
`heartbeatStep` as the result of the call and as the channel. -/
def NewMessage (now : Nat) (body : String) (ack : MsgState → Err × MsgState)
    (groupId : String) : Message × MsgState :=
  (⟨body, ack, groupId, cancelFunc⟩,
   { vcDone := false, pc := HbPc.select (now + heartbeatInterval), trace := [] })

/-- `Message.Body` (lines 59-61). -/
def Message.Body (m : Message) : String := m.body

/-- `Message.Ack` (lines 63-66). -/
def Message.Ack (m : Message) (st : MsgState) : Err × MsgState :=
  let st1 := m.visibilityFunctionCancel st
  m.ack st1

/-- `Message.GroupID` (lines 68-70). -/
def Message.GroupID (m : Message) : String := m.groupId

/-- Actions of the heartbeat goroutine. -/
inductive HbAction
  /-- The `select` takes `case <-vc.Done()`. -/
  | done
  /-- The `select` takes `case <-time.After(...)`. -/
  | timer
  /-- The call `changeVisibility(vc, 30)` is made and returns `r`. -/
  | call (r : Err)
  /-- The send `errorSub <- err` completes. -/
  | send
deriving DecidableEq, Repr

/-- One step of the heartbeat goroutine (message.go lines 42-53) at time `now`, with
`errorSub` a channel of capacity `cap`. -/
def heartbeatStep (cap now : Nat) (st : MsgState) (errorSub : List Err) :
    HbAction → Option (MsgState × List Err)
  | HbAction.done =>
    match st.pc with
    | HbPc.select _ => if st.vcDone then some ({ st with pc := HbPc.returned }, errorSub) else none
    | _ => none
  | HbAction.timer =>
    match st.pc with
    | HbPc.select deadline =>
      if deadline ≤ now then some ({ st with pc := HbPc.wake }, errorSub) else none
    | _ => none
  | HbAction.call r =>
    match st.pc with
    | HbPc.wake =>
      let st1 := { st with trace := st.trace ++ [Event.extend now st.vcDone renewedTimeout] }
      match r with
      | none => some ({ st1 with pc := HbPc.select (now + heartbeatInterval) }, errorSub)
      | some e =>
        if !HasSuffix e.text contextCanceled.text then
          some ({ st1 with pc := HbPc.send e }, errorSub)
        else
          some ({ st1 with pc := HbPc.select (now + heartbeatInterval) }, errorSub)
    | _ => none
  | HbAction.send =>
    match st.pc with
    | HbPc.send e =>
      if errorSub.length < cap then
        some ({ st with pc := HbPc.select (now + heartbeatInterval) }, errorSub ++ [some e])
      else none
    | _ => none

/-- One message (its body and group id) with its heartbeat, the clock and the error
channel the heartbeat sends on. -/
structure MsgWorld where
  now : Nat
  body : String
  groupId : String
  st : MsgState
  errorSub : List Err
deriving DecidableEq, Repr

/-- Actions on a `MsgWorld`. -/
inductive MsgAction
  /-- Time advances by `d`. -/
  | tick (d : Nat)
  /-- The heartbeat goroutine takes a step. -/
  | hb (a : HbAction)
  /-- The holder of the message calls `Ack`, and the acknowledge capability returns `r`. -/
  | ack (r : Err)
deriving DecidableEq, Repr

/-- The world right after `NewMessage` at time `now`, with an empty error channel. -/
def newWorld (now : Nat) (body groupId : String) : MsgWorld :=
  { now := now, body := body, groupId := groupId,
    st := (NewMessage now body (ackCap none) groupId).2, errorSub := [] }

/-- One step of a `MsgWorld`. -/
def msgStep (cap : Nat) (w : MsgWorld) : MsgAction → Option MsgWorld
  | MsgAction.tick d => some { w with now := w.now + d }
  | MsgAction.hb a =>
    match heartbeatStep cap w.now w.st w.errorSub a with
    | some (st, ch) => some { w with st := st, errorSub := ch }
    | none => none
  | MsgAction.ack r =>
    some { w with st := ((NewMessage w.now w.body (ackCap r) w.groupId).1.Ack w.st).2 }

/-- Runs a list of actions; `none` when one of them is not enabled. -/
def msgExec (cap : Nat) : MsgWorld → List MsgAction → Option MsgWorld
  | w, [] => some w
  | w, a :: as =>
    match msgStep cap w a with
    | some w1 => msgExec cap w1 as
    | none => none

/-! ## sqs.go -/

/-- The fields of the SDK type `types.Message` that the code reads. -/
structure SqsMessage where
  body : String
  groupId : String
  receiptHandle : String
deriving DecidableEq, Repr

/-- The Go conversion to `int32` and the wrap-around of `atomic.AddInt32`. -/
def toInt32 (n : Int) : Int := (n + 2147483648) % 4294967296 - 2147483648

/-- The `VisibilityTimeout` the poller requests with each receive (sqs.go line 83). -/
def initialVisibilityTimeout : Nat := 60

/-- Program counter of the poller goroutine (sqs.go lines 67-109). -/
inductive PollerPc
  /-- At the `select` of line 69. -/
  | top
  /-- Inside the call `ReceiveMessage` of line 80. -/
  | receiving
  /-- At line 87, `errSub <- err`, with `err = e`. -/
  | sendErr (e : GoError)
  /-- Inside the `range` loop of lines 91-106 with `rest` still to visit. `pending = some k`:
  the counter was incremented and message `k` built (lines 94-105), the send of line 95 on
  the channel `message` has not completed. -/
  | pushing (pending : Option Nat) (rest : List SqsMessage)
  /-- Inside the loop of lines 71-73, with loop variable `i`. -/
  | sendNils (i : Nat)
  /-- The goroutine returned (line 74 or line 88). -/
  | returned
deriving DecidableEq, Repr

/-- Program counter of one worker goroutine (sqs.go lines 112-122). -/
inductive WorkerPc
  /-- At the `select` of line 114. -/
  | select
  /-- Inside `fn(gCtx, msg)` of line 116 with message number `k`. -/
  | handler (k : Nat)
  /-- The handler returned; the decrement of line 117 is next. -/
  | decrement
  /-- The worker returned `r` (line 119). -/
  | returned (r : Err)
deriving DecidableEq, Repr

/-- The state of one call of `Subscribe` with `conf.MaxMessages = N`. -/
structure Session where
  now : Nat
  /-- Whether `gCtx.Done()` is closed. -/
  gCtxDone : Bool
  messageCount : Int
  /-- Contents of the channel `message`: numbers of messages in `msgs`. -/
  message : List Nat
  /-- Contents of the channel `errSub`. -/
  errSub : List Err
  poller : PollerPc
  workers : List WorkerPc
  /-- Every message built by `NewMessage` so far, with its heartbeat. -/
  msgs : List (SqsMessage × MsgState)
  /-- The error recorded by the errgroup: the first non-nil error a worker returned. -/
  gErr : Err
  /-- The value `Subscribe` returned, once `g.Wait()` has returned. -/
  result : Option Err
  /-- Number of `ReceiveMessage` calls issued. -/
  receives : Nat
  /-- Number of `errSub <- nil` sends completed (line 72). -/
  nilsSent : Nat
deriving DecidableEq, Repr

/-- The state of `Subscribe` once its goroutines are started (lines 61-65, 67, 111-112):
counter 0, both channels empty, the poller and the `N` workers at their `select`. -/
def init (N : Nat) : Session :=
  { now := 0, gCtxDone := false, messageCount := 0, message := [], errSub := [],
    poller := PollerPc.top, workers := List.replicate N WorkerPc.select, msgs := [],
    gErr := none, result := none, receives := 0, nilsSent := 0 }

/-- Actions of a session. -/
inductive Action
  /-- Time advances by `d`. -/
  | tick (d : Nat)
  /-- The caller cancels the context passed to `Subscribe`. -/
  | ctxCancel
  /-- The poller evaluates its `select` (line 69) and, in the default case, the
  ceiling check of line 77 and the call of line 80. -/
  | pollSelect
  /-- `ReceiveMessage` returns `batch` without error. -/
  | recvOk (batch : List SqsMessage)
  /-- `ReceiveMessage` returns the error `e`. -/
  | recvFail (e : GoError)
  /-- The send of line 87 completes and the poller returns. -/
  | pollSendErr
  /-- The `range` loop of line 91 advances: lines 92-105 for the next message up to
  the evaluation of `NewMessage`, or loop exit. -/
  | pollRange
  /-- The send of line 95 completes. -/
  | pollPush
  /-- The loop of lines 71-73 advances: one `errSub <- nil`, or loop exit and return. -/
  | pollNil
  /-- Worker `i` takes `case msg := <-message` (line 115) and calls the handler. -/
  | workerTakeMsg (i : Nat)
  /-- The handler run by worker `i` calls `Ack` on its message; the delete returns `r`. -/
  | handlerAck (i : Nat) (r : Err)
  /-- The handler run by worker `i` returns. -/
  | handlerReturn (i : Nat)
  /-- Worker `i` executes line 117. -/
  | workerDecr (i : Nat)
  /-- Worker `i` takes `case err := <-errSub` and returns it (lines 118-119). -/
  | workerTakeSig (i : Nat)
  /-- All workers have returned: `g.Wait()` returns and so does `Subscribe` (line 125). -/
  | waitReturn
  /-- The heartbeat of message `k` takes a step. -/
  | heartbeat (k : Nat) (a : HbAction)
deriving DecidableEq, Repr

/-- Whether a worker has returned. -/
def WorkerPc.isReturned : WorkerPc → Bool
  | WorkerPc.returned _ => true
  | _ => false

/-- Whether a worker is inside the handler. -/
def WorkerPc.inHandler : WorkerPc → Bool
  | WorkerPc.handler _ => true
  | _ => false

/-- The poller at its `select` (lines 69-80): the cancellation case when `gCtx.Done()` is
closed, else the default case. In the default case, when the counter equals the ceiling
the iteration is skipped by `continue` (line 78) and nothing changes: that is not a step
(`none`); otherwise `ReceiveMessage` is called. -/
def stepPollSelect (N : Nat) (s : Session) : Option Session :=
  match s.poller with
  | PollerPc.top =>
    if s.gCtxDone then some { s with poller := PollerPc.sendNils 0 }
    else if s.messageCount == toInt32 N then none
    else some { s with poller := PollerPc.receiving, receives := s.receives + 1 }
  | _ => none

/-- Return of `ReceiveMessage` (lines 80-91). -/
def stepRecv (s : Session) (r : Except GoError (List SqsMessage)) : Option Session :=
  match s.poller with
  | PollerPc.receiving =>
    match r with
    | Except.ok batch => some { s with poller := PollerPc.pushing none batch }
    | Except.error e => some { s with poller := PollerPc.sendErr e }
  | _ => none

/-- The send of the receive error and the return (lines 87-88). -/
def stepPollSendErr (N : Nat) (s : Session) : Option Session :=
  match s.poller with
  | PollerPc.sendErr e =>
    if s.errSub.length < N then
      some { s with errSub := s.errSub ++ [some e], poller := PollerPc.returned }
    else none
  | _ => none

/-- The `range` loop: increment and `NewMessage` for the next message (lines 91-105). -/
def stepPollRange (s : Session) : Option Session :=
  match s.poller with
  | PollerPc.pushing none (m :: rest) =>
    some { s with
      messageCount := toInt32 (s.messageCount + 1),
      msgs := s.msgs ++ [(m, (NewMessage s.now m.body (ackCap none) m.groupId).2)],
      poller := PollerPc.pushing (some s.msgs.length) rest }
  | PollerPc.pushing none [] => some { s with poller := PollerPc.top }
  | _ => none

/-- The send on the channel `message` (line 95), of capacity `N`. -/
def stepPollPush (N : Nat) (s : Session) : Option Session :=
  match s.poller with
  | PollerPc.pushing (some k) rest =>
    if s.message.length < N then
      some { s with message := s.message ++ [k], poller := PollerPc.pushing none rest }
    else none
  | _ => none

/-- The loop `for i := 0; i < conf.MaxMessages; i++ { errSub <- nil }; return` (lines 71-74). -/
def stepPollNil (N : Nat) (s : Session) : Option Session :=
  match s.poller with
  | PollerPc.sendNils i =>
    if i < N then
      if s.errSub.length < N then
        some { s with errSub := s.errSub ++ [none], nilsSent := s.nilsSent + 1,
                      poller := PollerPc.sendNils (i + 1) }
      else none
    else some { s with poller := PollerPc.returned }
  | _ => none

/-- Worker `i` receives from `message` and enters the handler (lines 115-116). -/
def stepWorkerTakeMsg (s : Session) (i : Nat) : Option Session :=
  match s.workers.get? i, s.message with
  | some WorkerPc.select, k :: rest =>
    some { s with workers := s.workers.set i (WorkerPc.handler k), message := rest }
  | _, _ => none

/-- The state of a message after `Ack` is called on the `Message` that the poller built
from `raw` (lines 95-105), its delete capability returning `r`. -/
def ackMessage (now : Nat) (raw : SqsMessage) (r : Err) (st : MsgState) : MsgState :=
  ((NewMessage now raw.body (ackCap r) raw.groupId).1.Ack st).2

/-- The handler of worker `i` calls `msg.Ack()`. -/
def stepHandlerAck (s : Session) (i : Nat) (r : Err) : Option Session :=
  match s.workers.get? i with
  | some (WorkerPc.handler k) =>
    match s.msgs.get? k with
    | some (raw, st) => some { s with msgs := s.msgs.set k (raw, ackMessage s.now raw r st) }
    | none => none
  | _ => none

/-- The handler of worker `i` returns (end of line 116). -/
def stepHandlerReturn (s : Session) (i : Nat) : Option Session :=
  match s.workers.get? i with
  | some (WorkerPc.handler _) => some { s with workers := s.workers.set i WorkerPc.decrement }
  | _ => none

/-- Worker `i` runs `atomic.AddInt32(&messageCount, -1)` (line 117). -/
def stepWorkerDecr (s : Session) (i : Nat) : Option Session :=
  match s.workers.get? i with
  | some WorkerPc.decrement =>
    some { s with workers := s.workers.set i WorkerPc.select,
                  messageCount := toInt32 (s.messageCount - 1) }
  | _ => none

/-- Worker `i` receives from `errSub` and returns the value (lines 118-119); the
errgroup records the first non-nil error and cancels `gCtx`. -/
def stepWorkerTakeSig (s : Session) (i : Nat) : Option Session :=
  match s.workers.get? i, s.errSub with
  | some WorkerPc.select, sig :: rest =>
    let s1 := { s with workers := s.workers.set i (WorkerPc.returned sig), errSub := rest }
    match sig, s.gErr with
    | some e, none => some { s1 with gErr := some e, gCtxDone := true }
    | _, _ => some s1
  | _, _ => none

/-- The method `g.Wait()` returns once every worker has returned; it cancels `gCtx` and
`Subscribe` returns the recorded error (line 125). -/
def stepWaitReturn (s : Session) : Option Session :=
  if s.workers.all WorkerPc.isReturned && s.result.isNone then
    some { s with result := some s.gErr, gCtxDone := true }
  else none

/-- A step of the heartbeat of message `k`, sending on `errSub` (capacity `N`). -/
def stepHeartbeat (N : Nat) (s : Session) (k : Nat) (a : HbAction) : Option Session :=
  match s.msgs.get? k with
  | some (raw, st) =>
    match heartbeatStep N s.now st s.errSub a with
    | some (st1, ch) => some { s with msgs := s.msgs.set k (raw, st1), errSub := ch }
    | none => none
  | none => none

/-- One step of a session with `conf.MaxMessages = N`; `none` when the action is not enabled. -/
def step (N : Nat) (s : Session) : Action → Option Session
  | Action.tick d => some { s with now := s.now + d }
  | Action.ctxCancel => some { s with gCtxDone := true }
  | Action.pollSelect => stepPollSelect N s
  | Action.recvOk batch => stepRecv s (Except.ok batch)
  | Action.recvFail e => stepRecv s (Except.error e)
  | Action.pollSendErr => stepPollSendErr N s
  | Action.pollRange => stepPollRange s
  | Action.pollPush => stepPollPush N s
  | Action.pollNil => stepPollNil N s
  | Action.workerTakeMsg i => stepWorkerTakeMsg s i
  | Action.handlerAck i r => stepHandlerAck s i r
  | Action.handlerReturn i => stepHandlerReturn s i
  | Action.workerDecr i => stepWorkerDecr s i
  | Action.workerTakeSig i => stepWorkerTakeSig s i
  | Action.waitReturn => stepWaitReturn s
  | Action.heartbeat k a => stepHeartbeat N s k a

/-- Runs a list of actions; `none` when one of them is not enabled. -/
def exec (N : Nat) : Session → List Action → Option Session
  | s, [] => some s
  | s, a :: as =>
    match step N s a with
    | some s1 => exec N s1 as
    | none => none

/-- Number of handler invocations that have started and not yet returned. -/
def handlersRunning (s : Session) : Nat :=
  (s.workers.filter WorkerPc.inHandler).length

/-! ## Definitions used to state the properties -/

/-- The calls to `changeVisibility` recorded in a trace, as pairs (time, timeout). -/
def extendCalls : List Event → List (Nat × Int)
  | [] => []
  | Event.extend t _ timeout :: rest => (t, timeout) :: extendCalls rest
  | _ :: rest => extendCalls rest

/-- Whether no call to `changeVisibility` is recorded after the first `cancel`. -/
def noExtendAfterCancel : List Event → Bool
  | [] => true
  | Event.cancel :: rest => (extendCalls rest).isEmpty
  | _ :: rest => noExtendAfterCancel rest

/-- The lease rule of the queue service (a received message stays hidden until its lease
expires; a call made at time `t` with timeout `d` while the lease is in force moves the
expiry to `t + d`): whether every call in the list is made strictly before the lease
then in force expires, starting from the expiry time `expiry`. -/
def leaseHeld (expiry : Nat) : List (Nat × Int) → Bool
  | [] => true
  | (t, d) :: rest => decide (t < expiry) && leaseHeld (t + d.toNat) rest

/-- Whether time may advance by `d` when a due timer is served at once and a call to
`changeVisibility` takes no time. -/
def tickAllowed (w : MsgWorld) (d : Nat) : Bool :=
  match w.st.pc with
  | HbPc.select deadline => decide (w.now + d ≤ deadline)
  | HbPc.wake => d == 0
  | _ => true

/-- A step of a `MsgWorld` in which time advances only as `tickAllowed` permits. -/
def promptStep (cap : Nat) (w : MsgWorld) : MsgAction → Option MsgWorld
  | MsgAction.tick d => if tickAllowed w d then msgStep cap w (MsgAction.tick d) else none
  | a => msgStep cap w a

/-- Runs a list of actions with `promptStep`. -/
def promptExec (cap : Nat) : MsgWorld → List MsgAction → Option MsgWorld
  | w, [] => some w
  | w, a :: as =>
    match promptStep cap w a with
    | some w1 => promptExec cap w1 as
    | none => none

/-- Actions of a run in which the message is never acknowledged and every call to
`changeVisibility` succeeds. -/
def MsgAction.quiet : MsgAction → Bool
  | MsgAction.ack _ => false
  | MsgAction.hb (HbAction.call (some _)) => false
  | _ => true

/-- The calls of a heartbeat that was never cancelled and never failed, after `k` rounds. -/
def schedule (k : Nat) : List (Nat × Int) :=
  (List.range k).map (fun i => (heartbeatInterval * (i + 1), renewedTimeout))

/-- The lease rule of the queue service, continued: the time at which the lease expires
after the calls in the list, starting from the expiry time `expiry`. -/
def leaseExpiry (expiry : Nat) : List (Nat × Int) → Nat
  | [] => expiry
  | (t, d) :: rest => leaseExpiry (t + d.toNat) rest

/-- One round of the heartbeat loop when nothing fails: the interval passes, the `select`
takes the timer case, `changeVisibility` is called and returns nil at once. -/
def quietRound : List MsgAction :=
  [MsgAction.tick heartbeatInterval, MsgAction.hb HbAction.timer,
   MsgAction.hb (HbAction.call none)]

/-- The first `k` rounds of the heartbeat loop when nothing fails. -/
def quietRounds : Nat → List MsgAction
  | 0 => []
  | k + 1 => quietRounds k ++ quietRound

/-- `OnSchedule w k`: exactly the first `k` calls of the schedule were made, the context is
not cancelled, the time is between call `k` and call `k + 1`, and the loop either waits in
its `select` for the timer of call `k + 1` or has just taken the timer case at that time. -/
def OnSchedule (w : MsgWorld) (k : Nat) : Prop :=
  extendCalls w.st.trace = schedule k ∧ w.st.vcDone = false ∧
  heartbeatInterval * k ≤ w.now ∧
  ((w.st.pc = HbPc.select (heartbeatInterval * (k + 1)) ∧
      w.now ≤ heartbeatInterval * (k + 1)) ∨
   (w.st.pc = HbPc.wake ∧ w.now = heartbeatInterval * (k + 1)))

/-- Actions by which no error is sent on `errSub`: no failed receive, and no lease-extension
failure other than one whose text ends with "context canceled". -/
def Action.errFree : Action → Bool
  | Action.recvFail _ => false
  | Action.pollSendErr => false
  | Action.heartbeat _ (HbAction.call (some e)) => HasSuffix e.text contextCanceled.text
  | Action.heartbeat _ HbAction.send => false
  | _ => true

/-- Actions of the poller, of the workers (a handler returning included), the reply of the
queue service and the return of `g.Wait()`; the others are the passage of time, the caller
cancelling, a handler calling `Ack`, and the heartbeats. -/
def Action.isProgress : Action → Bool
  | Action.tick _ => false
  | Action.ctxCancel => false
  | Action.handlerAck _ _ => false
  | Action.heartbeat _ _ => false
  | _ => true

/-- Steps a worker still has to take before it returns, when no message is left. -/
def WorkerPc.weight : WorkerPc → Nat
  | WorkerPc.select => 1
  | WorkerPc.handler _ => 3
  | WorkerPc.decrement => 2
  | WorkerPc.returned _ => 0

/-- Steps the poller still has to take once `gCtx` is cancelled, counting for each message
it has yet to push the steps a worker will spend on it. -/
def PollerPc.weight (N : Nat) : PollerPc → Nat
  | PollerPc.top => N + 2
  | PollerPc.receiving => 0
  | PollerPc.sendErr _ => 1
  | PollerPc.pushing pending rest => 5 * rest.length + (if pending.isSome then 4 else 0) + (N + 3)
  | PollerPc.sendNils i => (N - i) + 1
  | PollerPc.returned => 0

/-- Bound on the number of `isProgress` steps left once `gCtx` is cancelled and the poller
is not inside `ReceiveMessage`. -/
def stepsLeft (N : Nat) (s : Session) : Nat :=
  (s.poller.weight N) + 3 * s.message.length + (s.workers.map WorkerPc.weight).sum +
    (if s.result.isNone then 1 else 0)

/-- 1 while the poller is inside `ReceiveMessage`, 0 otherwise. -/
def recvPhase (s : Session) : Nat :=
  match s.poller with
  | PollerPc.receiving => 1
  | _ => 0

/-- `Progresses N t1 t`: from `t`, after any number of actions that are not `isProgress`,
one `isProgress` action leads to `t1`. -/
def Progresses (N : Nat) (t1 t : Session) : Prop :=
  ∃ envs a, (∀ b ∈ envs, Action.isProgress b = false) ∧ Action.isProgress a = true ∧
    exec N t (envs ++ [a]) = some t1

/-- 1 for a worker that has returned, 0 otherwise. -/
def WorkerPc.returnedBit (w : WorkerPc) : Nat := if w.isReturned then 1 else 0

/-- Number of workers that have returned. -/
def returnedCount (s : Session) : Nat :=
  (s.workers.map WorkerPc.returnedBit).sum

/-- The state reached from the start of `Subscribe` by the actions `as` (the start state
itself when some action of `as` is not enabled). -/
def stateAfter (N : Nat) (as : List Action) : Session :=
  (exec N (init N) as).getD (init N)

/-- A message as returned by the queue service, used in concrete runs. -/
def msgA : SqsMessage := ⟨"a", "g", "h1"⟩

/-- A transport error used in concrete runs. -/
def errThrottled : GoError := ⟨"throttled"⟩

/-- A second transport error used in concrete runs. -/
def errTimeout : GoError := ⟨"request timeout"⟩

/-- With `MaxMessages = 1`: one message is received and handed to the worker, whose
handler keeps running. -/
def runOneHandler : List Action :=
  [Action.pollSelect, Action.recvOk [msgA], Action.pollRange, Action.pollPush,
   Action.workerTakeMsg 0]

/-- With `MaxMessages = 1`: while the handler of the only worker runs, the heartbeat of its
message fails at time 20, sends the error, and fails again at time 40. -/
def runTwoFailures : List Action :=
  runOneHandler ++
  [Action.tick 20, Action.heartbeat 0 HbAction.timer,
   Action.heartbeat 0 (HbAction.call (some errThrottled)), Action.heartbeat 0 HbAction.send,
   Action.tick 20, Action.heartbeat 0 HbAction.timer,
   Action.heartbeat 0 (HbAction.call (some errTimeout))]

/-- With `MaxMessages = 2`: worker 0 runs a handler; the caller cancels; the poller emits
its two nil signals, the first taken by worker 1; the heartbeat of the message then fails
and sends its error behind the second nil; worker 0 finishes its handler and takes that
nil; `g.Wait()` returns. -/
def runCancelAndError : List Action :=
  [Action.pollSelect, Action.recvOk [msgA], Action.pollRange, Action.pollPush,
   Action.pollRange, Action.workerTakeMsg 0, Action.ctxCancel, Action.pollSelect,
   Action.pollNil, Action.workerTakeSig 1, Action.pollNil, Action.pollNil,
   Action.tick 20, Action.heartbeat 0 HbAction.timer,
   Action.heartbeat 0 (HbAction.call (some errThrottled)), Action.heartbeat 0 HbAction.send,
   Action.handlerReturn 0, Action.workerDecr 0, Action.workerTakeSig 0, Action.waitReturn]

/-- What the errgroup guarantees about the recorded error and the returned value. -/
def JoinInv (s : Session) : Prop :=
  (s.gErr = none → ∀ w ∈ s.workers, ∀ e, w ≠ WorkerPc.returned (some e)) ∧
  (∀ e, s.gErr = some e → WorkerPc.returned (some e) ∈ s.workers) ∧
  (∀ r, s.result = some r → r = s.gErr ∧ s.workers.all WorkerPc.isReturned = true)

/-- With `MaxMessages = 2`: the first receive fails; the poller sends the error and returns;
worker 0 takes the error and returns it. -/
def runReceiveError : List Action :=
  [Action.pollSelect, Action.recvFail errThrottled, Action.pollSendErr, Action.workerTakeSig 0]

/-- How many nil signals the poller has sent when it stands at `p`, in a session in which
no error is sent: none before the loop of lines 71-73, `i` inside it, `N` after it. -/
def NilsSentAt (N : Nat) : PollerPc → Nat → Prop
  | PollerPc.sendNils i, n => n = i ∧ i ≤ N
  | PollerPc.returned, n => n = N
  | PollerPc.sendErr _, _ => False
  | _, n => n = 0

/-- What holds along a session in which no error is sent on `errSub`: only nil signals are
in the channel or were received, and every nil the poller sent is either still in the
channel or was received by a worker that returned. -/
def GracefulInv (N : Nat) (s : Session) : Prop :=
  s.workers.length = N ∧
  (∀ sig ∈ s.errSub, sig = none) ∧
  (∀ w ∈ s.workers, ∀ r, w = WorkerPc.returned r → r = none) ∧
  s.gErr = none ∧
  (∀ r, s.result = some r → r = none) ∧
  returnedCount s + s.errSub.length = s.nilsSent ∧
  NilsSentAt N s.poller s.nilsSent

/-- The state after `runReceiveError` is frozen: these facts hold from then on. -/
def StuckAfterError (s : Session) : Prop :=
  s.poller = PollerPc.returned ∧
  s.workers = [WorkerPc.returned (some errThrottled), WorkerPc.select] ∧
  s.message = [] ∧ s.errSub = [] ∧ s.msgs = [] ∧ s.result = none ∧ s.receives = 1

/-- Whether the poller has left its receive loop: it is emitting nil signals (lines 71-73)
or has returned. -/
def PollerPc.leftLoop : PollerPc → Bool
  | PollerPc.sendNils _ => true
  | PollerPc.returned => true
  | _ => false

/-- With `MaxMessages = 1`: a message is being handled when the caller cancels; the poller
observes the cancellation and sends its nil signal; the handler returns, the worker takes
the nil and returns; `g.Wait()` returns. -/
def runGraceful : List Action :=
  [Action.pollSelect, Action.recvOk [msgA], Action.pollRange, Action.pollPush,
   Action.pollRange, Action.workerTakeMsg 0, Action.ctxCancel, Action.pollSelect,
   Action.pollNil, Action.pollNil, Action.handlerReturn 0, Action.workerDecr 0,
   Action.workerTakeSig 0, Action.waitReturn]

/-- Actions of a session in which every receive returns at most one message: the request
of sqs.go lines 80-85 sets no `MaxNumberOfMessages`, and the queue service then returns at
most one message per call. -/
def Action.smallBatch : Action → Bool
  | Action.recvOk batch => decide (batch.length ≤ 1)
  | _ => true

/-- 1 for a worker holding a message that was counted and not yet discounted (inside the
handler or just before the decrement of line 117), 0 otherwise. -/
def WorkerPc.inFlightBit : WorkerPc → Nat
  | WorkerPc.handler _ => 1
  | WorkerPc.decrement => 1
  | _ => 0

/-- 1 when the poller has counted a message (line 94) that it has not yet sent on the
channel `message` (line 95), 0 otherwise. -/
def PollerPc.pendingBit : PollerPc → Nat
  | PollerPc.pushing (some _) _ => 1
  | _ => 0

/-- Messages received and counted minus handler returns discounted: the message the poller
is about to send, those in the channel `message`, and those held by workers. -/
def inFlight (s : Session) : Nat :=
  s.poller.pendingBit + s.message.length + (s.workers.map WorkerPc.inFlightBit).sum

/-- What the poller's position says about the counter `c` when batches hold at most one
message: below the ceiling from the check of line 77 until the message is counted. -/
def BatchWithin (N : Nat) : PollerPc → Int → Prop
  | PollerPc.receiving, c => c < N
  | PollerPc.pushing none rest, c => rest.length ≤ 1 ∧ (rest ≠ [] → c < N)
  | PollerPc.pushing (some _) rest, _ => rest = []
  | _, _ => True

/-- Invariant of a session whose batches hold at most one message, for a ceiling that fits
an `int32`: the counter is the number of messages in flight and is at most `N`. -/
def CeilingInv (N : Nat) (s : Session) : Prop :=
  s.messageCount = (inFlight s : Int) ∧ s.messageCount ≤ (N : Int) ∧
  BatchWithin N s.poller s.messageCount

/-- Actions other than a heartbeat completing its send `errorSub <- err`: in a run made of
them no heartbeat has forwarded an error. -/
def Action.noForward : Action → Bool
  | Action.heartbeat _ HbAction.send => false
  | _ => true

/-- What the channel `errSub` can hold, by the poller's position, while no heartbeat has
forwarded an error: nothing before the poller sends, at most the `i` nil signals sent so
far inside the loop of lines 71-73. -/
def PollerRoom : PollerPc → Nat → Prop
  | PollerPc.sendNils i, len => len ≤ i
  | PollerPc.returned, _ => True
  | _, len => len = 0

/-! ## Properties of message.go -/

theorem extendCalls_append (xs ys : List Event) :
    extendCalls (xs ++ ys) = extendCalls xs ++ extendCalls ys := by
  induction xs with
  | nil => rfl
  | cons x xs ih => cases x <;> simp [extendCalls, ih]

/-- C1: `Message.Ack` on a message built by `NewMessage` with capability `ack` runs the
cancel function first and then `ack` exactly once, on the state in which the heartbeat
context is already cancelled, and returns what `ack` returned; with a capability that
records its invocation and returns `r`, the trace grows by `cancel` followed by one `ack`. -/
theorem Ack_cancels_then_acks (now : Nat) (body groupId : String) (st : MsgState) :
    (∀ ack : MsgState → Err × MsgState,
      (NewMessage now body ack groupId).1.Ack st = ack (cancelFunc st)) ∧
    (cancelFunc st).vcDone = true ∧
    (∀ r : Err, (NewMessage now body (ackCap r) groupId).1.Ack st =
      (r, { vcDone := true, pc := st.pc, trace := st.trace ++ [Event.cancel, Event.ack] })) := by
  refine ⟨fun ack => rfl, rfl, fun r => ?_⟩
  simp [NewMessage, Message.Ack, ackCap, cancelFunc]

/-- C6 (as stated, refuted): a lease-extension failure of a heartbeat whose context was
never cancelled is swallowed, not sent, when its text ends with "context canceled". -/
theorem swallowed_without_cancellation :
    ¬ (∀ (cap now : Nat) (st st1 : MsgState) (ch ch1 : List Err) (e : GoError),
        st.pc = HbPc.wake → st.vcDone = false →
        heartbeatStep cap now st ch (HbAction.call (some e)) = some (st1, ch1) →
        st1.pc = HbPc.send e) := by
  intro h
  have h1 := h 1 20 { vcDone := false, pc := HbPc.wake, trace := [] }
    { vcDone := false, pc := HbPc.select 40, trace := [Event.extend 20 false 30] } [] []
    ⟨"connection reset: context canceled"⟩ rfl rfl (by decide)
  exact absurd h1 (by decide)

/-- C6 (amended): the error `e` returned by a lease-extension call is handed to the send
statement `errorSub <- e` exactly when its text does not end with "context canceled",
whatever the state of the heartbeat context; otherwise the loop goes back to its `select`
and the channel is untouched. The send, once the channel has room, enqueues `e` once and
the loop goes back to its `select`. -/
theorem forwarded_iff_text (cap now : Nat) (st : MsgState) (ch : List Err) (e : GoError)
    (hpc : st.pc = HbPc.wake) :
    ∃ st1, heartbeatStep cap now st ch (HbAction.call (some e)) = some (st1, ch) ∧
      (st1.pc = HbPc.send e ↔ HasSuffix e.text "context canceled" = false) ∧
      (HasSuffix e.text "context canceled" = true → st1.pc = HbPc.select (now + 20)) ∧
      (st1.pc = HbPc.send e → ∀ (now2 : Nat) (ch2 : List Err), ch2.length < cap →
        ∃ st2, heartbeatStep cap now2 st1 ch2 HbAction.send = some (st2, ch2 ++ [some e]) ∧
          st2.pc = HbPc.select (now2 + 20)) := by
  by_cases hs : HasSuffix e.text "context canceled" = true
  · refine ⟨⟨st.vcDone, HbPc.select (now + heartbeatInterval),
      st.trace ++ [Event.extend now st.vcDone renewedTimeout]⟩, ?_, ?_, ?_, ?_⟩
    · simp [heartbeatStep, hpc, contextCanceled, hs]
    · simp [hs]
    · intro _; rfl
    · intro h; simp at h
  · have hs2 : HasSuffix e.text "context canceled" = false := by simpa using hs
    refine ⟨⟨st.vcDone, HbPc.send e,
      st.trace ++ [Event.extend now st.vcDone renewedTimeout]⟩, ?_, ?_, ?_, ?_⟩
    · simp [heartbeatStep, hpc, contextCanceled, hs2]
    · simp [hs2]
    · intro h; rw [hs2] at h; exact absurd h (by decide)
    · intro _ now2 ch2 hlen
      exact ⟨⟨st.vcDone, HbPc.select (now2 + heartbeatInterval),
        st.trace ++ [Event.extend now st.vcDone renewedTimeout]⟩,
        by simp [heartbeatStep, hlen], rfl⟩

/-- A lease-extension failure with the text "throttled" is handed to the send. -/
theorem forwarded_iff_text_witness :
    ∃ st1, heartbeatStep 1 20 { vcDone := false, pc := HbPc.wake, trace := [] } []
        (HbAction.call (some ⟨"throttled"⟩)) = some (st1, []) ∧
      (st1.pc = HbPc.send ⟨"throttled"⟩ ↔ HasSuffix "throttled" "context canceled" = false) ∧
      (HasSuffix "throttled" "context canceled" = true → st1.pc = HbPc.select (20 + 20)) ∧
      (st1.pc = HbPc.send ⟨"throttled"⟩ → ∀ (now2 : Nat) (ch2 : List Err), ch2.length < 1 →
        ∃ st2, heartbeatStep 1 now2 st1 ch2 HbAction.send =
            some (st2, ch2 ++ [some ⟨"throttled"⟩]) ∧
          st2.pc = HbPc.select (now2 + 20)) :=
  forwarded_iff_text 1 20 { vcDone := false, pc := HbPc.wake, trace := [] } [] ⟨"throttled"⟩ rfl

/-- C5 (as stated, refuted): at time 20 the timer and the cancellation are both ready;
the `select` takes the timer case and `changeVisibility` is called after `Ack`. -/
theorem extension_after_Ack :
    ¬ (∀ (cap : Nat) (as : List MsgAction) (w : MsgWorld),
        msgExec cap (newWorld 0 "b" "g") as = some w →
        noExtendAfterCancel w.st.trace = true) := by
  intro h
  have h1 := h 1 [MsgAction.tick 20, MsgAction.ack none, MsgAction.hb HbAction.timer,
    MsgAction.hb (HbAction.call (some contextCanceled))]
    { now := 20, body := "b", groupId := "g",
      st := { vcDone := true, pc := HbPc.select 40,
              trace := [Event.cancel, Event.ack, Event.extend 20 true 30] },
      errorSub := [] } (by decide)
  exact absurd h1 (by decide)

theorem heartbeatStep_after_cancel (cap now : Nat) (st st1 : MsgState) (ch ch1 : List Err)
    (b : HbAction) (hc : st.vcDone = true)
    (h : heartbeatStep cap now st ch b = some (st1, ch1)) :
    st1.vcDone = true ∧
    ∃ new, st1.trace = st.trace ++ new ∧
      (∀ t c d, Event.extend t c d ∈ new → c = true) ∧
      (st.pc = HbPc.returned → st1.pc = HbPc.returned ∧ extendCalls new = []) := by
  obtain ⟨vc, pc, tr⟩ := st
  simp only at hc
  subst hc
  cases b with
  | done =>
    cases pc <;> simp [heartbeatStep] at h
    obtain ⟨h1, _⟩ := h
    subst h1
    exact ⟨rfl, [], by simp, by simp, fun _ => ⟨rfl, rfl⟩⟩
  | timer =>
    cases pc <;> simp [heartbeatStep] at h
    obtain ⟨_, h1, _⟩ := h
    subst h1
    exact ⟨rfl, [], by simp, by simp, by simp⟩
  | send =>
    cases pc <;> simp [heartbeatStep] at h
    obtain ⟨_, h1, _⟩ := h
    subst h1
    exact ⟨rfl, [], by simp, by simp, by simp⟩
  | call r =>
    cases pc <;> simp [heartbeatStep] at h
    cases r with
    | none =>
      simp at h
      obtain ⟨h1, _⟩ := h
      subst h1
      exact ⟨rfl, [Event.extend now true renewedTimeout], rfl, by simp, by simp⟩
    | some e =>
      simp only at h
      split at h
      · simp only [Option.some.injEq, Prod.mk.injEq] at h
        obtain ⟨h1, _⟩ := h
        subst h1
        exact ⟨rfl, [Event.extend now true renewedTimeout], rfl, by simp, by simp⟩
      · simp only [Option.some.injEq, Prod.mk.injEq] at h
        obtain ⟨h1, _⟩ := h
        subst h1
        exact ⟨rfl, [Event.extend now true renewedTimeout], rfl, by simp, by simp⟩

theorem msgStep_after_cancel (cap : Nat) (w w1 : MsgWorld) (a : MsgAction)
    (hc : w.st.vcDone = true) (h : msgStep cap w a = some w1) :
    w1.st.vcDone = true ∧
    ∃ new, w1.st.trace = w.st.trace ++ new ∧
      (∀ t c d, Event.extend t c d ∈ new → c = true) ∧
      (w.st.pc = HbPc.returned → w1.st.pc = HbPc.returned ∧ extendCalls new = []) := by
  cases a with
  | tick d =>
    simp only [msgStep, Option.some.injEq] at h
    subst h
    exact ⟨hc, [], by simp, by simp, fun hp => ⟨hp, rfl⟩⟩
  | ack r =>
    simp only [msgStep, Option.some.injEq] at h
    subst h
    refine ⟨rfl, [Event.cancel, Event.ack], ?_, ?_, ?_⟩
    · simp [NewMessage, Message.Ack, ackCap, cancelFunc]
    · intro t c d hm; simp at hm
    · intro hp
      exact ⟨by simpa [NewMessage, Message.Ack, ackCap, cancelFunc] using hp, rfl⟩
  | hb b =>
    simp only [msgStep] at h
    cases hstep : heartbeatStep cap w.now w.st w.errorSub b with
    | none => simp [hstep] at h
    | some p =>
      obtain ⟨st1, ch1⟩ := p
      simp only [hstep, Option.some.injEq] at h
      subst h
      exact heartbeatStep_after_cancel cap w.now w.st st1 w.errorSub ch1 b hc hstep

theorem msgExec_after_cancel (cap : Nat) (as : List MsgAction) :
    ∀ (w w1 : MsgWorld), w.st.vcDone = true → msgExec cap w as = some w1 →
    w1.st.vcDone = true ∧
    ∃ new, w1.st.trace = w.st.trace ++ new ∧
      (∀ t c d, Event.extend t c d ∈ new → c = true) ∧
      (w.st.pc = HbPc.returned → w1.st.pc = HbPc.returned ∧ extendCalls new = []) := by
  induction as with
  | nil =>
    intro w w1 hc h
    simp only [msgExec, Option.some.injEq] at h
    subst h
    exact ⟨hc, [], by simp, by simp, fun hp => ⟨hp, rfl⟩⟩
  | cons a as ih =>
    intro w w1 hc h
    simp only [msgExec] at h
    cases hs : msgStep cap w a with
    | none => simp [hs] at h
    | some w2 =>
      simp only [hs] at h
      obtain ⟨hc2, n1, ht1, he1, hr1⟩ := msgStep_after_cancel cap w w2 a hc hs
      obtain ⟨hc3, n2, ht2, he2, hr2⟩ := ih w2 w1 hc2 h
      refine ⟨hc3, n1 ++ n2, by rw [ht2, ht1, List.append_assoc], ?_, ?_⟩
      · intro t c d hm
        rcases List.mem_append.mp hm with hm | hm
        · exact he1 t c d hm
        · exact he2 t c d hm
      · intro hp
        obtain ⟨hp2, hx1⟩ := hr1 hp
        obtain ⟨hp3, hx2⟩ := hr2 hp2
        exact ⟨hp3, by rw [extendCalls_append, hx1, hx2]; rfl⟩

/-- C5 (amended): once the cancel step of `Ack` has run, in every continuation: the
context stays cancelled; every further call to `changeVisibility` is issued with the
already-cancelled context; once the loop has returned it stays returned and no call is
issued again; and while the timer is not yet due the `select` cannot take the timer case,
only the cancellation case, which makes the loop return. -/
theorem after_cancel (cap : Nat) (w w1 : MsgWorld) (as : List MsgAction)
    (hc : w.st.vcDone = true) (h : msgExec cap w as = some w1) :
    w1.st.vcDone = true ∧
    (∃ new, w1.st.trace = w.st.trace ++ new ∧
      (∀ t c d, Event.extend t c d ∈ new → c = true) ∧
      (w.st.pc = HbPc.returned → w1.st.pc = HbPc.returned ∧ extendCalls new = [])) ∧
    (∀ deadline, w.st.pc = HbPc.select deadline → w.now < deadline →
      msgStep cap w (MsgAction.hb HbAction.timer) = none ∧
      ∃ w2, msgStep cap w (MsgAction.hb HbAction.done) = some w2 ∧
        w2.st.pc = HbPc.returned) := by
  obtain ⟨h1, h2⟩ := msgExec_after_cancel cap as w w1 hc h
  refine ⟨h1, h2, ?_⟩
  intro deadline hsel hlt
  refine ⟨?_, ?_⟩
  · simp [msgStep, heartbeatStep, hsel, Nat.not_le.mpr hlt]
  · exact ⟨⟨w.now, w.body, w.groupId, ⟨w.st.vcDone, HbPc.returned, w.st.trace⟩, w.errorSub⟩,
      by simp [msgStep, heartbeatStep, hsel, hc], rfl⟩

/-- The run in which the timer case is taken at time 20 after the cancel: the late call
carries the cancelled context. -/
theorem after_cancel_witness :
    (⟨20, "b", "g", ⟨true, HbPc.select 40, [Event.cancel, Event.ack, Event.extend 20 true 30]⟩,
        []⟩ : MsgWorld).st.vcDone = true ∧
    (∃ new, [Event.cancel, Event.ack, Event.extend 20 true 30] =
        [Event.cancel, Event.ack] ++ new ∧
      (∀ t c d, Event.extend t c d ∈ new → c = true) ∧
      (HbPc.select 20 = HbPc.returned →
        HbPc.select 40 = HbPc.returned ∧ extendCalls new = [])) :=
  let h := after_cancel 1
    ⟨20, "b", "g", ⟨true, HbPc.select 20, [Event.cancel, Event.ack]⟩, []⟩
    ⟨20, "b", "g", ⟨true, HbPc.select 40, [Event.cancel, Event.ack, Event.extend 20 true 30]⟩, []⟩
    [MsgAction.hb HbAction.timer, MsgAction.hb (HbAction.call (some contextCanceled))]
    rfl (by decide)
  ⟨h.1, h.2.1⟩

theorem schedule_succ (k : Nat) :
    schedule (k + 1) = schedule k ++ [(heartbeatInterval * (k + 1), renewedTimeout)] := by
  simp [schedule, List.range_succ]

theorem schedule_length (k : Nat) : (schedule k).length = k := by
  simp [schedule]

theorem leaseHeld_range (k : Nat) :
    ∀ (c expiry : Nat), heartbeatInterval * (c + 1) < expiry →
      leaseHeld expiry ((List.range' c k).map
        (fun i => (heartbeatInterval * (i + 1), renewedTimeout))) = true := by
  induction k with
  | zero => intro c expiry _; rfl
  | succ k ih =>
    intro c expiry hlt
    simp only [List.range'_succ, List.map_cons, leaseHeld, Bool.and_eq_true, decide_eq_true_eq]
    refine ⟨hlt, ih (c + 1) _ ?_⟩
    simp only [heartbeatInterval, renewedTimeout]
    have : ((30 : Int)).toNat = 30 := rfl
    rw [this]
    omega

theorem leaseHeld_schedule (k : Nat) :
    leaseHeld initialVisibilityTimeout (schedule k) = true := by
  have h := leaseHeld_range k 0 initialVisibilityTimeout (by decide)
  simpa [schedule, List.range_eq_range'] using h

theorem promptStep_schedule (cap : Nat) (w w1 : MsgWorld) (a : MsgAction) (k : Nat)
    (hq : a.quiet = true) (h : promptStep cap w a = some w1) (hI : OnSchedule w k) :
    ∃ k1, OnSchedule w1 k1 := by
  obtain ⟨htr, hc, hlo, hpc⟩ := hI
  obtain ⟨now, wbody, wgroup, ⟨vc, pc, tr⟩, ch⟩ := w
  simp only at htr hc hpc hlo
  subst hc
  cases a with
  | ack r => simp [MsgAction.quiet] at hq
  | tick d =>
    rcases hpc with ⟨hp, hn⟩ | ⟨hp, hn⟩
    · subst hp
      simp only [promptStep, tickAllowed, msgStep] at h
      split at h
      · rename_i hd
        simp only [Option.some.injEq] at h
        subst h
        exact ⟨k, htr, rfl, Nat.le_trans hlo (Nat.le_add_right _ _),
          Or.inl ⟨rfl, by simpa using hd⟩⟩
      · simp at h
    · subst hp
      simp only [promptStep, tickAllowed, msgStep] at h
      split at h
      · rename_i hd
        simp only [Option.some.injEq] at h
        subst h
        have hd0 : d = 0 := by simpa using hd
        exact ⟨k, htr, rfl, Nat.le_trans hlo (Nat.le_add_right _ _),
          Or.inr ⟨rfl, by simp [hd0, hn]⟩⟩
      · simp at h
  | hb b =>
    rcases hpc with ⟨hp, hn⟩ | ⟨hp, hn⟩
    · subst hp
      cases b with
      | done => simp [promptStep, msgStep, heartbeatStep] at h
      | send => simp [promptStep, msgStep, heartbeatStep] at h
      | call r => simp [promptStep, msgStep, heartbeatStep] at h
      | timer =>
        by_cases hd : heartbeatInterval * (k + 1) ≤ now
        · simp only [promptStep, msgStep, heartbeatStep, hd, if_true, Option.some.injEq] at h
          subst h
          exact ⟨k, htr, rfl, hlo, Or.inr ⟨rfl, Nat.le_antisymm hn hd⟩⟩
        · simp [promptStep, msgStep, heartbeatStep, hd] at h
    · subst hp
      cases b with
      | done => simp [promptStep, msgStep, heartbeatStep] at h
      | send => simp [promptStep, msgStep, heartbeatStep] at h
      | timer => simp [promptStep, msgStep, heartbeatStep] at h
      | call r =>
        cases r with
        | some e => simp [MsgAction.quiet] at hq
        | none =>
          simp only [promptStep, msgStep, heartbeatStep, Option.some.injEq] at h
          subst h
          refine ⟨k + 1, ?_, rfl, ?_, Or.inl ⟨?_, ?_⟩⟩
          · simp only [extendCalls_append, htr, schedule_succ, extendCalls, hn]
          · exact Nat.le_of_eq hn.symm
          · simp only [hn, heartbeatInterval]
            congr 1
          · simp only [hn, heartbeatInterval]
            omega

theorem promptExec_schedule (cap : Nat) (as : List MsgAction) :
    ∀ (w w1 : MsgWorld) (k : Nat), (∀ a ∈ as, a.quiet = true) →
    promptExec cap w as = some w1 → OnSchedule w k → ∃ k1, OnSchedule w1 k1 := by
  induction as with
  | nil =>
    intro w w1 k _ h hI
    simp only [promptExec, Option.some.injEq] at h
    subst h
    exact ⟨k, hI⟩
  | cons a as ih =>
    intro w w1 k hq h hI
    simp only [promptExec] at h
    cases hs : promptStep cap w a with
    | none => simp [hs] at h
    | some w2 =>
      simp only [hs] at h
      obtain ⟨k2, hI2⟩ :=
        promptStep_schedule cap w w2 a k (hq a (List.mem_cons_self a as)) hs hI
      exact ih w2 w1 k2 (fun b hb => hq b (List.mem_cons_of_mem a hb)) h hI2

theorem promptExec_append (cap : Nat) (as bs : List MsgAction) :
    ∀ w, promptExec cap w (as ++ bs) =
      (promptExec cap w as).bind (fun w1 => promptExec cap w1 bs) := by
  induction as with
  | nil => intro w; rfl
  | cons a as ih =>
    intro w
    simp only [List.cons_append, promptExec]
    cases promptStep cap w a with
    | none => rfl
    | some w1 => exact ih w1

theorem leaseExpiry_append (xs : List (Nat × Int)) (t : Nat) (d : Int) :
    ∀ expiry, leaseExpiry expiry (xs ++ [(t, d)]) = t + d.toNat := by
  induction xs with
  | nil => intro expiry; rfl
  | cons x xs ih =>
    intro expiry
    obtain ⟨t1, d1⟩ := x
    simp only [List.cons_append, leaseExpiry]
    exact ih _

theorem leaseExpiry_schedule (k : Nat) :
    heartbeatInterval * (k + 1) < leaseExpiry initialVisibilityTimeout (schedule k) := by
  cases k with
  | zero => decide
  | succ k =>
    rw [schedule_succ, leaseExpiry_append]
    have : (renewedTimeout).toNat = 30 := rfl
    rw [this]
    simp only [heartbeatInterval]
    omega

theorem quietRounds_quiet (k : Nat) : ∀ a ∈ quietRounds k, a.quiet = true := by
  induction k with
  | zero => intro a ha; simp [quietRounds] at ha
  | succ k ih =>
    intro a ha
    simp only [quietRounds, List.mem_append] at ha
    rcases ha with ha | ha
    · exact ih a ha
    · simp only [quietRound, List.mem_cons, List.mem_singleton, List.not_mem_nil,
        or_false] at ha
      rcases ha with rfl | rfl | rfl <;> rfl

theorem quietRound_step (cap : Nat) (w : MsgWorld) (k : Nat)
    (htr : extendCalls w.st.trace = schedule k) (hc : w.st.vcDone = false)
    (hpc : w.st.pc = HbPc.select (heartbeatInterval * (k + 1)))
    (hn : w.now = heartbeatInterval * k) :
    ∃ w1, promptExec cap w quietRound = some w1 ∧
      extendCalls w1.st.trace = schedule (k + 1) ∧ w1.st.vcDone = false ∧
      w1.st.pc = HbPc.select (heartbeatInterval * (k + 2)) ∧
      w1.now = heartbeatInterval * (k + 1) := by
  obtain ⟨now, wbody, wgroup, ⟨vc, pc, tr⟩, ch⟩ := w
  simp only at htr hc hpc hn
  subst hc hpc hn
  have h1 : heartbeatInterval * k + heartbeatInterval = heartbeatInterval * (k + 1) := by
    simp only [heartbeatInterval]; omega
  refine ⟨⟨heartbeatInterval * (k + 1), wbody, wgroup,
    ⟨false, HbPc.select (heartbeatInterval * (k + 1) + heartbeatInterval),
      tr ++ [Event.extend (heartbeatInterval * (k + 1)) false renewedTimeout]⟩, ch⟩,
    ?_, ?_, rfl, ?_, rfl⟩
  · simp [quietRound, promptExec, promptStep, tickAllowed, msgStep, heartbeatStep, h1]
  · simp only [extendCalls_append, htr, schedule_succ, extendCalls]
  · simp only [heartbeatInterval]
    congr 1

theorem quietRounds_run (cap : Nat) (body groupId : String) (k : Nat) :
    ∃ w, promptExec cap (newWorld 0 body groupId) (quietRounds k) = some w ∧
      extendCalls w.st.trace = schedule k ∧ w.st.vcDone = false ∧
      w.st.pc = HbPc.select (heartbeatInterval * (k + 1)) ∧
      w.now = heartbeatInterval * k := by
  induction k with
  | zero => exact ⟨newWorld 0 body groupId, rfl, rfl, rfl, rfl, rfl⟩
  | succ k ih =>
    obtain ⟨w, hrun, htr, hc, hpc, hn⟩ := ih
    obtain ⟨w1, hstep, htr1, hc1, hpc1, hn1⟩ := quietRound_step cap w k htr hc hpc hn
    refine ⟨w1, ?_, htr1, hc1, hpc1, hn1⟩
    simp only [quietRounds, promptExec_append, hrun, Option.some_bind, hstep]

/-- C7: a message built at the moment it is received (time 0, initial lease 60), never
acknowledged, whose lease-extension calls all succeed and take no time, the timer being
served the moment it is due. For every `k` the run of `k` rounds exists: it reaches time
`20 * k` having made exactly the calls number 1 to `k`, the i-th at time `20 * i` with
timeout 30. And in every such run, at the time it has reached: the calls made are exactly
the first `k` of that schedule with `20 * k <= now <= 20 * (k + 1)`; the heartbeat loop
has not returned; every call was made strictly before the lease then in force expired (the
first before 60, each later one before the expiry set by the previous call); the lease is
still in force (the current time is before its expiry); and once 45 time units have passed
at least 2 calls were made. -/
theorem heartbeat_keeps_lease (cap : Nat) (body groupId : String) :
    (∀ k, ∃ w, (∀ a ∈ quietRounds k, a.quiet = true) ∧
      promptExec cap (newWorld 0 body groupId) (quietRounds k) = some w ∧
      w.now = 20 * k ∧ (extendCalls w.st.trace).length = k ∧
      (∀ i, i < k → (extendCalls w.st.trace).get? i = some (20 * (i + 1), 30))) ∧
    (∀ (as : List MsgAction) (w : MsgWorld), (∀ a ∈ as, a.quiet = true) →
      promptExec cap (newWorld 0 body groupId) as = some w →
      (∃ k, extendCalls w.st.trace = schedule k ∧ 20 * k ≤ w.now ∧ w.now ≤ 20 * (k + 1)) ∧
      (∀ i, i < (extendCalls w.st.trace).length →
        (extendCalls w.st.trace).get? i = some (20 * (i + 1), 30)) ∧
      w.st.pc ≠ HbPc.returned ∧
      leaseHeld 60 (extendCalls w.st.trace) = true ∧
      w.now < leaseExpiry 60 (extendCalls w.st.trace) ∧
      (45 ≤ w.now → 2 ≤ (extendCalls w.st.trace).length)) := by
  refine ⟨?_, ?_⟩
  · intro k
    obtain ⟨w, hrun, htr, _, _, hn⟩ := quietRounds_run cap body groupId k
    refine ⟨w, quietRounds_quiet k, hrun, hn, by rw [htr, schedule_length], ?_⟩
    intro i hi
    rw [htr]
    simp [schedule, List.getElem?_range hi, heartbeatInterval, renewedTimeout]
  · intro as w hq h
    obtain ⟨k1, htr, _, hlo, hpc⟩ :=
      promptExec_schedule cap as (newWorld 0 body groupId) w 0 hq h
        ⟨rfl, rfl, Nat.zero_le _, Or.inl ⟨rfl, Nat.zero_le _⟩⟩
    have hn : w.now ≤ heartbeatInterval * (k1 + 1) := by
      rcases hpc with ⟨_, hn⟩ | ⟨_, hn⟩
      · exact hn
      · exact Nat.le_of_eq hn
    have hexp := leaseExpiry_schedule k1
    simp only [heartbeatInterval, initialVisibilityTimeout] at hn hlo hexp
    rw [htr]
    refine ⟨⟨k1, rfl, hlo, hn⟩, ?_, ?_, leaseHeld_schedule k1, by omega, ?_⟩
    · intro i hi
      rw [schedule_length] at hi
      simp [schedule, List.getElem?_range hi, heartbeatInterval, renewedTimeout]
    · rcases hpc with ⟨hp, _⟩ | ⟨hp, _⟩ <;> (rw [hp]; simp)
    · intro h45
      rw [schedule_length]
      omega

/-- The run of two rounds followed by five more time units: at time 45 the calls at 20 and
40 were made and the lease, renewed at 40, runs until 70. -/
theorem heartbeat_keeps_lease_witness :
    (extendCalls (⟨45, "b", "g", ⟨false, HbPc.select 60,
        [Event.extend 20 false 30, Event.extend 40 false 30]⟩, []⟩ : MsgWorld).st.trace).length
      = 2 ∧
    leaseExpiry 60 [(20, 30), (40, 30)] = 70 ∧
    (45 : Nat) < leaseExpiry 60 (extendCalls (⟨45, "b", "g", ⟨false, HbPc.select 60,
        [Event.extend 20 false 30, Event.extend 40 false 30]⟩, []⟩ : MsgWorld).st.trace) :=
  ⟨by decide, by decide,
   ((heartbeat_keeps_lease 1 "b" "g").2
      (quietRounds 2 ++ [MsgAction.tick 5])
      ⟨45, "b", "g", ⟨false, HbPc.select 60,
        [Event.extend 20 false 30, Event.extend 40 false 30]⟩, []⟩
      (by decide) (by decide)).2.2.2.2.1⟩

/-! ## Steps of a session -/

theorem stepPollSelect_some (N : Nat) (s s1 : Session) (h : stepPollSelect N s = some s1) :
    s.poller = PollerPc.top ∧
    ((s.gCtxDone = true ∧ s1 = { s with poller := PollerPc.sendNils 0 }) ∨
     (s.gCtxDone = false ∧ s.messageCount ≠ toInt32 N ∧
        s1 = { s with poller := PollerPc.receiving, receives := s.receives + 1 })) := by
  unfold stepPollSelect at h
  split at h
  · rename_i hp
    refine ⟨hp, ?_⟩
    split at h
    · rename_i hc
      simp only [Option.some.injEq] at h
      exact Or.inl ⟨hc, h.symm⟩
    · rename_i hc
      split at h
      · simp at h
      · rename_i hm
        simp only [Option.some.injEq] at h
        exact Or.inr ⟨by simpa using hc, by simpa using hm, h.symm⟩
  · simp at h

theorem stepRecv_some (s s1 : Session) (r : Except GoError (List SqsMessage))
    (h : stepRecv s r = some s1) :
    s.poller = PollerPc.receiving ∧
    ((∃ batch, r = Except.ok batch ∧ s1 = { s with poller := PollerPc.pushing none batch }) ∨
     (∃ e, r = Except.error e ∧ s1 = { s with poller := PollerPc.sendErr e })) := by
  unfold stepRecv at h
  split at h
  · rename_i hp
    refine ⟨hp, ?_⟩
    cases r with
    | ok batch =>
      simp only [Option.some.injEq] at h
      exact Or.inl ⟨batch, rfl, h.symm⟩
    | error e =>
      simp only [Option.some.injEq] at h
      exact Or.inr ⟨e, rfl, h.symm⟩
  · simp at h

theorem stepPollSendErr_some (N : Nat) (s s1 : Session) (h : stepPollSendErr N s = some s1) :
    ∃ e, s.poller = PollerPc.sendErr e ∧ s.errSub.length < N ∧
      s1 = { s with errSub := s.errSub ++ [some e], poller := PollerPc.returned } := by
  unfold stepPollSendErr at h
  split at h
  · rename_i e hp
    by_cases hl : s.errSub.length < N
    · simp only [hl, if_true, Option.some.injEq] at h
      exact ⟨e, hp, hl, h.symm⟩
    · simp [hl] at h
  · simp at h

theorem stepPollRange_some (s s1 : Session) (h : stepPollRange s = some s1) :
    (∃ m rest, s.poller = PollerPc.pushing none (m :: rest) ∧
      s1 = { s with
        messageCount := toInt32 (s.messageCount + 1),
        msgs := s.msgs ++ [(m, (NewMessage s.now m.body (ackCap none) m.groupId).2)],
        poller := PollerPc.pushing (some s.msgs.length) rest }) ∨
    (s.poller = PollerPc.pushing none [] ∧ s1 = { s with poller := PollerPc.top }) := by
  unfold stepPollRange at h
  split at h
  · rename_i m rest hp
    simp only [Option.some.injEq] at h
    exact Or.inl ⟨m, rest, hp, h.symm⟩
  · rename_i hp
    simp only [Option.some.injEq] at h
    exact Or.inr ⟨hp, h.symm⟩
  · simp at h

theorem stepPollPush_some (N : Nat) (s s1 : Session) (h : stepPollPush N s = some s1) :
    ∃ k rest, s.poller = PollerPc.pushing (some k) rest ∧ s.message.length < N ∧
      s1 = { s with message := s.message ++ [k], poller := PollerPc.pushing none rest } := by
  unfold stepPollPush at h
  split at h
  · rename_i k rest hp
    by_cases hl : s.message.length < N
    · simp only [hl, if_true, Option.some.injEq] at h
      exact ⟨k, rest, hp, hl, h.symm⟩
    · simp [hl] at h
  · simp at h

theorem stepPollNil_some (N : Nat) (s s1 : Session) (h : stepPollNil N s = some s1) :
    ∃ i, s.poller = PollerPc.sendNils i ∧
      ((i < N ∧ s.errSub.length < N ∧
        s1 = { s with errSub := s.errSub ++ [none], nilsSent := s.nilsSent + 1,
                      poller := PollerPc.sendNils (i + 1) }) ∨
       (¬ i < N ∧ s1 = { s with poller := PollerPc.returned })) := by
  unfold stepPollNil at h
  split at h
  · rename_i i hp
    refine ⟨i, hp, ?_⟩
    by_cases hi : i < N
    · by_cases hl : s.errSub.length < N
      · simp only [hi, hl, if_true, Option.some.injEq] at h
        exact Or.inl ⟨hi, hl, h.symm⟩
      · simp [hi, hl] at h
    · simp only [hi, if_false, Option.some.injEq] at h
      exact Or.inr ⟨hi, h.symm⟩
  · simp at h

theorem stepWorkerTakeMsg_some (s s1 : Session) (i : Nat) (h : stepWorkerTakeMsg s i = some s1) :
    ∃ k rest, s.workers.get? i = some WorkerPc.select ∧ s.message = k :: rest ∧
      s1 = { s with workers := s.workers.set i (WorkerPc.handler k), message := rest } := by
  unfold stepWorkerTakeMsg at h
  split at h
  · rename_i k rest hw hm
    simp only [Option.some.injEq] at h
    exact ⟨k, rest, hw, hm, h.symm⟩
  · simp at h

theorem stepHandlerAck_some (s s1 : Session) (i : Nat) (r : Err)
    (h : stepHandlerAck s i r = some s1) :
    ∃ k raw st, s.workers.get? i = some (WorkerPc.handler k) ∧ s.msgs.get? k = some (raw, st) ∧
      s1 = { s with msgs := s.msgs.set k (raw, ackMessage s.now raw r st) } := by
  unfold stepHandlerAck at h
  split at h
  · rename_i k hw
    split at h
    · rename_i raw st hm
      simp only [Option.some.injEq] at h
      exact ⟨k, raw, st, hw, hm, h.symm⟩
    · simp at h
  · simp at h

theorem stepHandlerReturn_some (s s1 : Session) (i : Nat) (h : stepHandlerReturn s i = some s1) :
    ∃ k, s.workers.get? i = some (WorkerPc.handler k) ∧
      s1 = { s with workers := s.workers.set i WorkerPc.decrement } := by
  unfold stepHandlerReturn at h
  split at h
  · rename_i k hw
    simp only [Option.some.injEq] at h
    exact ⟨k, hw, h.symm⟩
  · simp at h

theorem stepWorkerDecr_some (s s1 : Session) (i : Nat) (h : stepWorkerDecr s i = some s1) :
    s.workers.get? i = some WorkerPc.decrement ∧
      s1 = { s with workers := s.workers.set i WorkerPc.select,
                    messageCount := toInt32 (s.messageCount - 1) } := by
  unfold stepWorkerDecr at h
  split at h
  · rename_i hw
    simp only [Option.some.injEq] at h
    exact ⟨hw, h.symm⟩
  · simp at h

theorem stepWorkerTakeSig_some (s s1 : Session) (i : Nat) (h : stepWorkerTakeSig s i = some s1) :
    ∃ sig rest, s.workers.get? i = some WorkerPc.select ∧ s.errSub = sig :: rest ∧
      ((∃ e, sig = some e ∧ s.gErr = none ∧
          s1 = { s with workers := s.workers.set i (WorkerPc.returned sig), errSub := rest,
                        gErr := some e, gCtxDone := true }) ∨
       ((sig = none ∨ s.gErr ≠ none) ∧
          s1 = { s with workers := s.workers.set i (WorkerPc.returned sig), errSub := rest })) := by
  unfold stepWorkerTakeSig at h
  split at h
  · rename_i sig rest hw hm
    refine ⟨sig, rest, hw, hm, ?_⟩
    cases sig with
    | none =>
      simp only [Option.some.injEq] at h
      exact Or.inr ⟨Or.inl rfl, h.symm⟩
    | some e =>
      cases hg : s.gErr with
      | none =>
        simp only [hg, Option.some.injEq] at h
        exact Or.inl ⟨e, rfl, rfl, h.symm⟩
      | some e2 =>
        simp only [hg, Option.some.injEq] at h
        exact Or.inr ⟨Or.inr (by simp), h.symm⟩
  · simp at h

theorem stepWaitReturn_some (s s1 : Session) (h : stepWaitReturn s = some s1) :
    s.workers.all WorkerPc.isReturned = true ∧ s.result = none ∧
      s1 = { s with result := some s.gErr, gCtxDone := true } := by
  unfold stepWaitReturn at h
  split at h
  · rename_i hc
    simp only [Bool.and_eq_true, Option.isNone_iff_eq_none] at hc
    simp only [Option.some.injEq] at h
    exact ⟨hc.1, hc.2, h.symm⟩
  · simp at h

theorem stepHeartbeat_some (N : Nat) (s s1 : Session) (k : Nat) (a : HbAction)
    (h : stepHeartbeat N s k a = some s1) :
    ∃ raw st st1 ch, s.msgs.get? k = some (raw, st) ∧
      heartbeatStep N s.now st s.errSub a = some (st1, ch) ∧
      s1 = { s with msgs := s.msgs.set k (raw, st1), errSub := ch } := by
  unfold stepHeartbeat at h
  split at h
  · rename_i raw st hm
    split at h
    · rename_i st1 ch hs
      simp only [Option.some.injEq] at h
      exact ⟨raw, st, st1, ch, hm, hs, h.symm⟩
    · simp at h
  · simp at h

theorem exec_append (N : Nat) (as bs : List Action) :
    ∀ s, exec N s (as ++ bs) = (exec N s as).bind (fun s1 => exec N s1 bs) := by
  induction as with
  | nil => intro s; rfl
  | cons a as ih =>
    intro s
    simp only [List.cons_append, exec]
    cases step N s a with
    | none => rfl
    | some s1 => exact ih s1

theorem exec_induction (N : Nat) (ok : Action → Prop) (P : Session → Prop)
    (hstep : ∀ s a s1, ok a → P s → step N s a = some s1 → P s1) (as : List Action) :
    ∀ s s1, (∀ a ∈ as, ok a) → P s → exec N s as = some s1 → P s1 := by
  induction as with
  | nil =>
    intro s s1 _ hP h
    simp only [exec, Option.some.injEq] at h
    exact h ▸ hP
  | cons a as ih =>
    intro s s1 hok hP h
    simp only [exec] at h
    cases hs : step N s a with
    | none => simp [hs] at h
    | some s2 =>
      simp only [hs] at h
      exact ih s2 s1 (fun b hb => hok b (List.mem_cons_of_mem a hb))
        (hstep s a s2 (hok a (List.mem_cons_self a as)) hP hs) h

theorem step_workers_length (N : Nat) (s s1 : Session) (a : Action)
    (h : step N s a = some s1) : s1.workers.length = s.workers.length := by
  cases a <;> simp only [step] at h
  case tick d => simp only [Option.some.injEq] at h; subst h; rfl
  case ctxCancel => simp only [Option.some.injEq] at h; subst h; rfl
  case pollSelect =>
    obtain ⟨_, ⟨_, rfl⟩ | ⟨_, _, rfl⟩⟩ := stepPollSelect_some N s s1 h <;> rfl
  case recvOk batch =>
    obtain ⟨_, ⟨_, _, rfl⟩ | ⟨_, _, rfl⟩⟩ := stepRecv_some s s1 _ h <;> rfl
  case recvFail e =>
    obtain ⟨_, ⟨_, _, rfl⟩ | ⟨_, _, rfl⟩⟩ := stepRecv_some s s1 _ h <;> rfl
  case pollSendErr =>
    obtain ⟨_, _, _, rfl⟩ := stepPollSendErr_some N s s1 h; rfl
  case pollRange =>
    obtain ⟨_, _, _, rfl⟩ | ⟨_, rfl⟩ := stepPollRange_some s s1 h <;> rfl
  case pollPush =>
    obtain ⟨_, _, _, _, rfl⟩ := stepPollPush_some N s s1 h; rfl
  case pollNil =>
    obtain ⟨_, _, ⟨_, _, rfl⟩ | ⟨_, rfl⟩⟩ := stepPollNil_some N s s1 h <;> rfl
  case workerTakeMsg i =>
    obtain ⟨_, _, _, _, rfl⟩ := stepWorkerTakeMsg_some s s1 i h; simp
  case handlerAck i r =>
    obtain ⟨_, _, _, _, _, rfl⟩ := stepHandlerAck_some s s1 i r h; rfl
  case handlerReturn i =>
    obtain ⟨_, _, rfl⟩ := stepHandlerReturn_some s s1 i h; simp
  case workerDecr i =>
    obtain ⟨_, rfl⟩ := stepWorkerDecr_some s s1 i h; simp
  case workerTakeSig i =>
    obtain ⟨_, _, _, _, ⟨_, _, _, rfl⟩ | ⟨_, rfl⟩⟩ := stepWorkerTakeSig_some s s1 i h <;> simp
  case waitReturn =>
    obtain ⟨_, _, rfl⟩ := stepWaitReturn_some s s1 h; rfl
  case heartbeat k b =>
    obtain ⟨_, _, _, _, _, _, rfl⟩ := stepHeartbeat_some N s s1 k b h; rfl

theorem heartbeatStep_channel (cap now : Nat) (st st1 : MsgState) (ch ch1 : List Err)
    (b : HbAction) (h : heartbeatStep cap now st ch b = some (st1, ch1)) :
    ch1 = ch ∨
      (ch.length < cap ∧ ∃ e, ch1 = ch ++ [some e] ∧ st.pc = HbPc.send e ∧ b = HbAction.send) := by
  obtain ⟨vc, pc, tr⟩ := st
  cases b with
  | done =>
    cases pc <;> simp [heartbeatStep] at h
    exact Or.inl h.2.2.symm
  | timer =>
    cases pc <;> simp [heartbeatStep] at h
    exact Or.inl h.2.2.symm
  | send =>
    cases pc <;> simp [heartbeatStep] at h
    exact Or.inr ⟨h.1, _, h.2.2.symm, rfl, rfl⟩
  | call r =>
    cases pc <;> simp [heartbeatStep] at h
    cases r with
    | none =>
      simp at h
      exact Or.inl h.2.symm
    | some e =>
      simp only at h
      split at h
      · simp only [Option.some.injEq, Prod.mk.injEq] at h
        exact Or.inl h.2.symm
      · simp only [Option.some.injEq, Prod.mk.injEq] at h
        exact Or.inl h.2.symm

theorem step_errSub (N : Nat) (s s1 : Session) (a : Action) (h : step N s a = some s1) :
    s1.errSub = s.errSub ∨ (s.errSub.length < N ∧ ∃ x, s1.errSub = s.errSub ++ [x]) ∨
      (∃ x, s.errSub = x :: s1.errSub) := by
  cases a <;> simp only [step] at h
  case tick d => simp only [Option.some.injEq] at h; subst h; exact Or.inl rfl
  case ctxCancel => simp only [Option.some.injEq] at h; subst h; exact Or.inl rfl
  case pollSelect =>
    obtain ⟨_, ⟨_, rfl⟩ | ⟨_, _, rfl⟩⟩ := stepPollSelect_some N s s1 h <;> exact Or.inl rfl
  case recvOk batch =>
    obtain ⟨_, ⟨_, _, rfl⟩ | ⟨_, _, rfl⟩⟩ := stepRecv_some s s1 _ h <;> exact Or.inl rfl
  case recvFail e =>
    obtain ⟨_, ⟨_, _, rfl⟩ | ⟨_, _, rfl⟩⟩ := stepRecv_some s s1 _ h <;> exact Or.inl rfl
  case pollSendErr =>
    obtain ⟨e, _, hl, rfl⟩ := stepPollSendErr_some N s s1 h
    exact Or.inr (Or.inl ⟨hl, _, rfl⟩)
  case pollRange =>
    obtain ⟨_, _, _, rfl⟩ | ⟨_, rfl⟩ := stepPollRange_some s s1 h <;> exact Or.inl rfl
  case pollPush =>
    obtain ⟨_, _, _, _, rfl⟩ := stepPollPush_some N s s1 h; exact Or.inl rfl
  case pollNil =>
    obtain ⟨_, _, ⟨_, hl, rfl⟩ | ⟨_, rfl⟩⟩ := stepPollNil_some N s s1 h
    · exact Or.inr (Or.inl ⟨hl, _, rfl⟩)
    · exact Or.inl rfl
  case workerTakeMsg i =>
    obtain ⟨_, _, _, _, rfl⟩ := stepWorkerTakeMsg_some s s1 i h; exact Or.inl rfl
  case handlerAck i r =>
    obtain ⟨_, _, _, _, _, rfl⟩ := stepHandlerAck_some s s1 i r h; exact Or.inl rfl
  case handlerReturn i =>
    obtain ⟨_, _, rfl⟩ := stepHandlerReturn_some s s1 i h; exact Or.inl rfl
  case workerDecr i =>
    obtain ⟨_, rfl⟩ := stepWorkerDecr_some s s1 i h; exact Or.inl rfl
  case workerTakeSig i =>
    obtain ⟨sig, _, _, hm, ⟨_, _, _, rfl⟩ | ⟨_, rfl⟩⟩ := stepWorkerTakeSig_some s s1 i h <;>
      exact Or.inr (Or.inr ⟨sig, hm⟩)
  case waitReturn =>
    obtain ⟨_, _, rfl⟩ := stepWaitReturn_some s s1 h; exact Or.inl rfl
  case heartbeat k b =>
    obtain ⟨_, _, _, ch, _, hb, rfl⟩ := stepHeartbeat_some N s s1 k b h
    rcases heartbeatStep_channel N _ _ _ _ _ _ hb with hc | ⟨hl, e, hc, _, _⟩
    · exact Or.inl hc
    · exact Or.inr (Or.inl ⟨hl, _, hc⟩)

theorem step_errSub_length (N : Nat) (s s1 : Session) (a : Action)
    (hI : s.errSub.length ≤ N) (h : step N s a = some s1) : s1.errSub.length ≤ N := by
  rcases step_errSub N s s1 a h with he | ⟨hl, x, he⟩ | ⟨x, he⟩
  · rw [he]; exact hI
  · rw [he, List.length_append]; simpa using hl
  · rw [he] at hI; simp only [List.length_cons] at hI; omega

theorem reachable_workers_length (N : Nat) (as : List Action) (s : Session)
    (h : exec N (init N) as = some s) : s.workers.length = N :=
  exec_induction N (fun _ => True) (fun t => t.workers.length = N)
    (fun t a t1 _ hP hs => (step_workers_length N t t1 a hs).trans hP) as (init N) s
    (fun _ _ => trivial) (by simp [init]) h

theorem reachable_errSub_length (N : Nat) (as : List Action) (s : Session)
    (h : exec N (init N) as = some s) : s.errSub.length ≤ N :=
  exec_induction N (fun _ => True) (fun t => t.errSub.length ≤ N)
    (fun t a t1 _ hP hs => step_errSub_length N t t1 a hP hs) as (init N) s
    (fun _ _ => trivial) (by simp [init]) h

/-! ## Properties of sqs.go -/

/-- C4: with `MaxMessages = N >= 1`, in every state a `Subscribe` session can reach, under
any interleaving and any batches, at most `N` handler invocations have started and not
yet returned. -/
theorem handlers_at_most_N (N : Nat) (_hN : 1 ≤ N) (as : List Action) (s : Session)
    (h : exec N (init N) as = some s) : handlersRunning s ≤ N := by
  have hl := reachable_workers_length N as s h
  unfold handlersRunning
  exact (List.length_filter_le _ _).trans (Nat.le_of_eq hl)

/-- With `MaxMessages = 1` and one handler running the bound is attained. -/
theorem handlers_at_most_N_witness :
    1 ≤ 1 ∧ handlersRunning (stateAfter 1 runOneHandler) = 1 ∧
      handlersRunning (stateAfter 1 runOneHandler) ≤ 1 :=
  ⟨by decide, by decide,
   handlers_at_most_N 1 (by decide) runOneHandler (stateAfter 1 runOneHandler) (by decide)⟩

/-- C10 (as stated, refuted): with `MaxMessages = 1`, a heartbeat that fails twice while
the handler runs reaches its send `errorSub <- err` with the channel already holding one
undelivered signal, that is `N` of them: the send blocks. -/
theorem heartbeat_send_blocks :
    ¬ (∀ (N : Nat) (as : List Action) (s : Session) (k : Nat) (raw : SqsMessage)
        (st : MsgState) (e : GoError), 1 ≤ N → exec N (init N) as = some s →
        s.msgs.get? k = some (raw, st) → st.pc = HbPc.send e → s.errSub.length < N) := by
  intro h
  have h1 := h 1 runTwoFailures (stateAfter 1 runTwoFailures) 0 msgA
    ⟨false, HbPc.send errTimeout, [Event.extend 20 false 30, Event.extend 40 false 30]⟩
    errTimeout (by decide) (by decide) (by decide) rfl
  exact absurd h1 (by decide)

theorem pollerRoom_step (N : Nat) (s s1 : Session) (a : Action)
    (hok : Action.noForward a = true) (hI : PollerRoom s.poller s.errSub.length)
    (h : step N s a = some s1) : PollerRoom s1.poller s1.errSub.length := by
  cases a <;> simp only [step] at h
  case tick d => simp only [Option.some.injEq] at h; subst h; exact hI
  case ctxCancel => simp only [Option.some.injEq] at h; subst h; exact hI
  case pollSelect =>
    obtain ⟨hp, ⟨_, rfl⟩ | ⟨_, _, rfl⟩⟩ := stepPollSelect_some N s s1 h
    · rw [hp] at hI
      have h0 : s.errSub.length = 0 := hI
      show s.errSub.length ≤ 0
      omega
    · rw [hp] at hI
      exact hI
  case recvOk batch =>
    obtain ⟨hp, ⟨_, _, rfl⟩ | ⟨_, _, rfl⟩⟩ := stepRecv_some s s1 _ h <;>
      (rw [hp] at hI; exact hI)
  case recvFail e =>
    obtain ⟨hp, ⟨_, _, rfl⟩ | ⟨_, _, rfl⟩⟩ := stepRecv_some s s1 _ h <;>
      (rw [hp] at hI; exact hI)
  case pollSendErr =>
    obtain ⟨_, _, _, rfl⟩ := stepPollSendErr_some N s s1 h; trivial
  case pollRange =>
    obtain ⟨_, _, hp, rfl⟩ | ⟨hp, rfl⟩ := stepPollRange_some s s1 h <;>
      (rw [hp] at hI; exact hI)
  case pollPush =>
    obtain ⟨_, _, hp, _, rfl⟩ := stepPollPush_some N s s1 h
    rw [hp] at hI; exact hI
  case pollNil =>
    obtain ⟨i, hp, ⟨_, _, rfl⟩ | ⟨_, rfl⟩⟩ := stepPollNil_some N s s1 h
    · rw [hp] at hI
      have h0 : s.errSub.length ≤ i := hI
      show (s.errSub ++ [none]).length ≤ i + 1
      simp only [List.length_append, List.length_singleton]
      omega
    · trivial
  case workerTakeMsg i =>
    obtain ⟨_, _, _, _, rfl⟩ := stepWorkerTakeMsg_some s s1 i h; exact hI
  case handlerAck i r =>
    obtain ⟨_, _, _, _, _, rfl⟩ := stepHandlerAck_some s s1 i r h; exact hI
  case handlerReturn i =>
    obtain ⟨_, _, rfl⟩ := stepHandlerReturn_some s s1 i h; exact hI
  case workerDecr i =>
    obtain ⟨_, rfl⟩ := stepWorkerDecr_some s s1 i h; exact hI
  case workerTakeSig i =>
    obtain ⟨sig, rest, _, hm, hs1⟩ := stepWorkerTakeSig_some s s1 i h
    have hlen : s.errSub.length = rest.length + 1 := by rw [hm]; rfl
    have key : PollerRoom s.poller rest.length := by
      cases hp : s.poller <;> rw [hp] at hI
      case sendNils j =>
        have h0 : s.errSub.length ≤ j := hI
        show rest.length ≤ j
        omega
      case returned => trivial
      all_goals
        have h0 : s.errSub.length = 0 := hI
        omega
    rcases hs1 with ⟨_, _, _, rfl⟩ | ⟨_, rfl⟩ <;> exact key
  case waitReturn =>
    obtain ⟨_, _, rfl⟩ := stepWaitReturn_some s s1 h; exact hI
  case heartbeat k b =>
    obtain ⟨_, _, _, ch, _, hb, rfl⟩ := stepHeartbeat_some N s s1 k b h
    rcases heartbeatStep_channel N _ _ _ _ _ _ hb with hc | ⟨_, _, _, _, hsend⟩
    · subst hc
      exact hI
    · subst hsend
      simp [Action.noForward] at hok

theorem reachable_pollerRoom (N : Nat) (as : List Action) (s : Session)
    (hok : ∀ a ∈ as, Action.noForward a = true) (h : exec N (init N) as = some s) :
    PollerRoom s.poller s.errSub.length :=
  exec_induction N (fun a => Action.noForward a = true)
    (fun t => PollerRoom t.poller t.errSub.length)
    (fun t a t1 ha hP hs => pollerRoom_step N t t1 a ha hP hs) as (init N) s hok
    (by simp [init, PollerRoom]) h

/-- C10 (amended): with `MaxMessages = N >= 1`, in every reachable state the error channel
holds at most `N` undelivered signals; a step that adds a signal is taken only from a state
in which the channel holds fewer than `N`, and adds exactly one; when the channel holds `N`
signals no send on it is enabled. As long as no heartbeat has forwarded an error, the
sends of the poller never block: whenever it stands at the send of a receive error or
inside its loop of nil signals, the channel has room and its step is enabled. A heartbeat
standing at its send can complete it exactly when the channel holds fewer than `N`
signals; otherwise it blocks. -/
theorem errSub_send_needs_room (N : Nat) (hN : 1 ≤ N) (as : List Action) (s : Session)
    (h : exec N (init N) as = some s) :
    s.errSub.length ≤ N ∧
    (∀ a s1, step N s a = some s1 → s.errSub.length < s1.errSub.length →
      s.errSub.length < N ∧ s1.errSub.length = s.errSub.length + 1) ∧
    (s.errSub.length = N →
      step N s Action.pollSendErr = none ∧
      (∀ k, step N s (Action.heartbeat k HbAction.send) = none) ∧
      (∀ i, s.poller = PollerPc.sendNils i → i < N → step N s Action.pollNil = none)) ∧
    ((∀ a ∈ as, Action.noForward a = true) →
      (∀ e, s.poller = PollerPc.sendErr e →
        s.errSub.length < N ∧ ∃ s1, step N s Action.pollSendErr = some s1) ∧
      (∀ i, s.poller = PollerPc.sendNils i →
        (i < N → s.errSub.length < N) ∧ ∃ s1, step N s Action.pollNil = some s1)) ∧
    (∀ k raw st e, s.msgs.get? k = some (raw, st) → st.pc = HbPc.send e →
      ((∃ s1, step N s (Action.heartbeat k HbAction.send) = some s1) ↔
        s.errSub.length < N)) := by
  refine ⟨reachable_errSub_length N as s h, ?_, ?_, ?_, ?_⟩
  · intro a s1 hs hlt
    rcases step_errSub N s s1 a hs with he | ⟨hl, x, he⟩ | ⟨x, he⟩
    · rw [he] at hlt; exact absurd hlt (Nat.lt_irrefl _)
    · exact ⟨hl, by rw [he]; simp⟩
    · rw [he] at hlt; simp at hlt
  · intro hfull
    refine ⟨?_, ?_, ?_⟩
    · cases ho : step N s Action.pollSendErr with
      | none => rfl
      | some s1 =>
        obtain ⟨_, _, hl, _⟩ := stepPollSendErr_some N s s1 ho
        omega
    · intro k
      cases ho : step N s (Action.heartbeat k HbAction.send) with
      | none => rfl
      | some s1 =>
        obtain ⟨_, st, _, ch, _, hb, _⟩ := stepHeartbeat_some N s s1 k _ ho
        obtain ⟨vc, pc, tr⟩ := st
        cases pc <;> simp [heartbeatStep] at hb
        omega
    · intro i hp hi
      cases ho : step N s Action.pollNil with
      | none => rfl
      | some s1 =>
        obtain ⟨j, hpj, ⟨_, hl, _⟩ | ⟨hnj, _⟩⟩ := stepPollNil_some N s s1 ho
        · omega
        · rw [hp] at hpj
          simp only [PollerPc.sendNils.injEq] at hpj
          omega
  · intro hok
    have hroom := reachable_pollerRoom N as s hok h
    refine ⟨?_, ?_⟩
    · intro e hp
      rw [hp] at hroom
      have h0 : s.errSub.length = 0 := hroom
      have hl : s.errSub.length < N := by omega
      exact ⟨hl, by simp [step, stepPollSendErr, hp, hl]⟩
    · intro i hp
      rw [hp] at hroom
      have h0 : s.errSub.length ≤ i := hroom
      refine ⟨fun hi => by omega, ?_⟩
      by_cases hi : i < N
      · have hl : s.errSub.length < N := by omega
        simp [step, stepPollNil, hp, hi, hl]
      · simp [step, stepPollNil, hp, hi]
  · intro k raw st e hm hpc
    obtain ⟨vc, pc, tr⟩ := st
    simp only at hpc
    subst hpc
    by_cases hl : s.errSub.length < N
    · simp only [step, stepHeartbeat, hm, heartbeatStep, hl, if_true]
      simp
    · simp only [step, stepHeartbeat, hm, heartbeatStep, hl, if_false]
      simp

/-- With `MaxMessages = 1` and one undelivered error the second send of the heartbeat is
not enabled; and in the run cancelled during a handler call, in which no heartbeat forwards
an error, the poller's first nil signal finds room. -/
theorem errSub_send_needs_room_witness :
    1 ≤ 1 ∧ (stateAfter 1 runTwoFailures).errSub.length = 1 ∧
    step 1 (stateAfter 1 runTwoFailures) (Action.heartbeat 0 HbAction.send) = none ∧
    ((0 < 1 → (stateAfter 1 (runOneHandler ++ [Action.ctxCancel, Action.pollRange,
        Action.pollSelect])).errSub.length < 1) ∧
      ∃ s1, step 1 (stateAfter 1 (runOneHandler ++ [Action.ctxCancel, Action.pollRange,
        Action.pollSelect])) Action.pollNil = some s1) :=
  ⟨by decide, by decide,
   ((errSub_send_needs_room 1 (by decide) runTwoFailures (stateAfter 1 runTwoFailures)
      (by decide)).2.2.1 (by decide)).2.1 0,
   ((errSub_send_needs_room 1 (by decide)
      (runOneHandler ++ [Action.ctxCancel, Action.pollRange, Action.pollSelect])
      (stateAfter 1 (runOneHandler ++ [Action.ctxCancel, Action.pollRange, Action.pollSelect]))
      (by decide)).2.2.2.1 (by decide)).2 0 (by decide)⟩

theorem mem_set_or_get {α : Type} (l : List α) (i : Nat) (x w : α) (h : w ∈ l) :
    w ∈ l.set i x ∨ l.get? i = some w := by
  induction l generalizing i with
  | nil => simp at h
  | cons y ys ih =>
    cases i with
    | zero =>
      rcases List.mem_cons.mp h with rfl | h
      · exact Or.inr rfl
      · exact Or.inl (by simp [h])
    | succ j =>
      rcases List.mem_cons.mp h with rfl | h
      · exact Or.inl (by simp)
      · rcases ih j h with h1 | h1
        · exact Or.inl (by simp [h1])
        · exact Or.inr (by simpa using h1)

theorem mem_set_self {α : Type} (l : List α) (i : Nat) (x y : α) (h : l.get? i = some y) :
    x ∈ l.set i x := by
  induction l generalizing i with
  | nil => simp at h
  | cons z zs ih =>
    cases i with
    | zero => simp
    | succ j =>
      have hj := ih j (by simpa using h)
      simp [hj]

theorem all_returned_get (l : List WorkerPc) (i : Nat) (w : WorkerPc)
    (hall : l.all WorkerPc.isReturned = true) (h : l.get? i = some w) :
    w.isReturned = true := by
  have hm : w ∈ l := List.get?_mem h
  exact List.all_eq_true.mp hall w hm

theorem joinInv_set (s : Session) (i : Nat) (old new : WorkerPc) (hI : JoinInv s)
    (hget : s.workers.get? i = some old) (hold : old.isReturned = false)
    (hnew : ∀ e, new ≠ WorkerPc.returned (some e)) :
    JoinInv { s with workers := s.workers.set i new } := by
  obtain ⟨h1, h2, h3⟩ := hI
  refine ⟨?_, ?_, ?_⟩
  · intro hg w hw e
    rcases List.mem_or_eq_of_mem_set hw with hw | rfl
    · exact h1 hg w hw e
    · exact hnew e
  · intro e hg
    rcases mem_set_or_get s.workers i new _ (h2 e hg) with hm | hm
    · exact hm
    · rw [hget] at hm
      simp only [Option.some.injEq] at hm
      rw [hm] at hold
      simp [WorkerPc.isReturned] at hold
  · intro r hr
    obtain ⟨_, hall⟩ := h3 r hr
    have := all_returned_get s.workers i old hall hget
    rw [hold] at this
    exact absurd this (by simp)

theorem joinInv_step (N : Nat) (s s1 : Session) (a : Action) (hI : JoinInv s)
    (h : step N s a = some s1) : JoinInv s1 := by
  cases a <;> simp only [step] at h
  case tick d => simp only [Option.some.injEq] at h; subst h; exact hI
  case ctxCancel => simp only [Option.some.injEq] at h; subst h; exact hI
  case pollSelect =>
    obtain ⟨_, ⟨_, rfl⟩ | ⟨_, _, rfl⟩⟩ := stepPollSelect_some N s s1 h <;> exact hI
  case recvOk batch =>
    obtain ⟨_, ⟨_, _, rfl⟩ | ⟨_, _, rfl⟩⟩ := stepRecv_some s s1 _ h <;> exact hI
  case recvFail e =>
    obtain ⟨_, ⟨_, _, rfl⟩ | ⟨_, _, rfl⟩⟩ := stepRecv_some s s1 _ h <;> exact hI
  case pollSendErr =>
    obtain ⟨_, _, _, rfl⟩ := stepPollSendErr_some N s s1 h; exact hI
  case pollRange =>
    obtain ⟨_, _, _, rfl⟩ | ⟨_, rfl⟩ := stepPollRange_some s s1 h <;> exact hI
  case pollPush =>
    obtain ⟨_, _, _, _, rfl⟩ := stepPollPush_some N s s1 h; exact hI
  case pollNil =>
    obtain ⟨_, _, ⟨_, _, rfl⟩ | ⟨_, rfl⟩⟩ := stepPollNil_some N s s1 h <;> exact hI
  case workerTakeMsg i =>
    obtain ⟨k, rest, hw, _, rfl⟩ := stepWorkerTakeMsg_some s s1 i h
    exact joinInv_set { s with message := rest } i _ _ hI hw rfl (by simp)
  case handlerAck i r =>
    obtain ⟨_, _, _, _, _, rfl⟩ := stepHandlerAck_some s s1 i r h; exact hI
  case handlerReturn i =>
    obtain ⟨_, hw, rfl⟩ := stepHandlerReturn_some s s1 i h
    exact joinInv_set s i _ _ hI hw rfl (by simp)
  case workerDecr i =>
    obtain ⟨hw, rfl⟩ := stepWorkerDecr_some s s1 i h
    exact joinInv_set { s with messageCount := toInt32 (s.messageCount - 1) } i _ _ hI hw rfl
      (by simp)
  case workerTakeSig i =>
    obtain ⟨sig, rest, hw, hm, ⟨e, hsig, hg, rfl⟩ | ⟨hcase, rfl⟩⟩ :=
      stepWorkerTakeSig_some s s1 i h
    · obtain ⟨h1, h2, h3⟩ := hI
      refine ⟨?_, ?_, ?_⟩
      · intro hg2; simp at hg2
      · intro e2 hg2
        simp only [Option.some.injEq] at hg2
        subst hg2
        subst hsig
        exact mem_set_self s.workers i _ _ hw
      · intro r hr
        obtain ⟨_, hall⟩ := h3 r hr
        have := all_returned_get s.workers i _ hall hw
        simp [WorkerPc.isReturned] at this
    · obtain ⟨h1, h2, h3⟩ := hI
      refine ⟨?_, ?_, ?_⟩
      · intro hg w hw2 e
        rcases List.mem_or_eq_of_mem_set hw2 with hw2 | rfl
        · exact h1 hg w hw2 e
        · rcases hcase with rfl | hne
          · simp
          · exact absurd hg hne
      · intro e hg
        rcases mem_set_or_get s.workers i (WorkerPc.returned sig) _ (h2 e hg) with hm2 | hm2
        · exact hm2
        · rw [hw] at hm2
          simp at hm2
      · intro r hr
        obtain ⟨_, hall⟩ := h3 r hr
        have := all_returned_get s.workers i _ hall hw
        simp [WorkerPc.isReturned] at this
  case waitReturn =>
    obtain ⟨hall, _, rfl⟩ := stepWaitReturn_some s s1 h
    obtain ⟨h1, h2, h3⟩ := hI
    refine ⟨h1, h2, ?_⟩
    intro r hr
    simp only [Option.some.injEq] at hr
    exact ⟨hr.symm, hall⟩
  case heartbeat k b =>
    obtain ⟨_, _, _, _, _, _, rfl⟩ := stepHeartbeat_some N s s1 k b h; exact hI

theorem reachable_joinInv (N : Nat) (as : List Action) (s : Session)
    (h : exec N (init N) as = some s) : JoinInv s :=
  exec_induction N (fun _ => True) JoinInv
    (fun t a t1 _ hP hs => joinInv_step N t t1 a hP hs) as (init N) s
    (fun _ _ => trivial)
    ⟨fun _ w hw e => by
        have := List.eq_of_mem_replicate hw
        rw [this]; simp,
      fun e he => by simp [init] at he,
      fun r hr => by simp [init] at hr⟩ h

/-- C8 (as stated, refuted): with `MaxMessages = 2` the context is cancelled and a failed
lease extension is sent on the error channel while a worker is still running, yet both
workers receive nil signals of the poller and `Subscribe` returns nil; the error stays in
the channel. -/
theorem nil_despite_error :
    ¬ (∀ (N : Nat) (as : List Action) (s : Session) (e : GoError), 1 ≤ N →
        exec N (init N) as = some s → s.gCtxDone = true → some e ∈ s.errSub →
        s.result ≠ some none) := by
  intro h
  exact h 2 runCancelAndError (stateAfter 2 runCancelAndError) errThrottled (by decide)
    (by decide) (by decide) (by decide) (by decide)

/-- C8 (amended): with `MaxMessages = N >= 1`, whenever `Subscribe` returns, every worker
has returned, and the value is non-nil exactly when some worker received a non-nil error
from the error channel; the value is then an error that a worker received. It is nil when
every worker received nil, whether or not the context was cancelled and an error was sent. -/
theorem join_result (N : Nat) (_hN : 1 ≤ N) (as : List Action) (s : Session) (r : Err)
    (h : exec N (init N) as = some s) (hr : s.result = some r) :
    s.workers.all WorkerPc.isReturned = true ∧
    (r = none ↔ ∀ w ∈ s.workers, w = WorkerPc.returned none) ∧
    (∀ e, r = some e → WorkerPc.returned (some e) ∈ s.workers) := by
  obtain ⟨h1, h2, h3⟩ := reachable_joinInv N as s h
  obtain ⟨hrg, hall⟩ := h3 r hr
  refine ⟨hall, ⟨?_, ?_⟩, ?_⟩
  · intro hn w hw
    have hret := List.all_eq_true.mp hall w hw
    cases w with
    | returned x =>
      cases x with
      | none => rfl
      | some e => exact absurd rfl (h1 (hrg ▸ hn) _ hw e)
    | select => simp [WorkerPc.isReturned] at hret
    | handler k => simp [WorkerPc.isReturned] at hret
    | decrement => simp [WorkerPc.isReturned] at hret
  · intro hw
    cases hg : s.gErr with
    | none => rw [hrg, hg]
    | some e =>
      have := hw _ (h2 e hg)
      simp at this
  · intro e he
    exact h2 e (by rw [← hrg, he])

/-- The run in which both workers take nil signals returns nil with both workers returned. -/
theorem join_result_witness :
    1 ≤ 2 ∧ (stateAfter 2 runCancelAndError).result = some none ∧
    (stateAfter 2 runCancelAndError).workers.all WorkerPc.isReturned = true :=
  ⟨by decide, by decide,
   (join_result 2 (by decide) runCancelAndError (stateAfter 2 runCancelAndError) none
      (by decide) (by decide)).1⟩

theorem stuckAfterError_step (s s1 : Session) (a : Action) (hP : StuckAfterError s)
    (h : step 2 s a = some s1) : StuckAfterError s1 := by
  obtain ⟨hp, hw, hm, he, hms, hr, hrc⟩ := hP
  cases a <;> simp only [step] at h
  case tick d => simp only [Option.some.injEq] at h; subst h; exact ⟨hp, hw, hm, he, hms, hr, hrc⟩
  case ctxCancel =>
    simp only [Option.some.injEq] at h; subst h; exact ⟨hp, hw, hm, he, hms, hr, hrc⟩
  case pollSelect =>
    obtain ⟨h1, _⟩ := stepPollSelect_some 2 s s1 h
    rw [hp] at h1; simp at h1
  case recvOk batch =>
    obtain ⟨h1, _⟩ := stepRecv_some s s1 _ h
    rw [hp] at h1; simp at h1
  case recvFail e =>
    obtain ⟨h1, _⟩ := stepRecv_some s s1 _ h
    rw [hp] at h1; simp at h1
  case pollSendErr =>
    obtain ⟨_, h1, _⟩ := stepPollSendErr_some 2 s s1 h
    rw [hp] at h1; simp at h1
  case pollRange =>
    obtain ⟨_, _, h1, _⟩ | ⟨h1, _⟩ := stepPollRange_some s s1 h <;>
      (rw [hp] at h1; simp at h1)
  case pollPush =>
    obtain ⟨_, _, h1, _⟩ := stepPollPush_some 2 s s1 h
    rw [hp] at h1; simp at h1
  case pollNil =>
    obtain ⟨_, h1, _⟩ := stepPollNil_some 2 s s1 h
    rw [hp] at h1; simp at h1
  case workerTakeMsg i =>
    obtain ⟨_, _, _, h1, _⟩ := stepWorkerTakeMsg_some s s1 i h
    rw [hm] at h1; simp at h1
  case handlerAck i r =>
    obtain ⟨_, _, _, h1, _⟩ := stepHandlerAck_some s s1 i r h
    rw [hw] at h1
    rcases i with _ | _ | i <;> simp at h1
  case handlerReturn i =>
    obtain ⟨_, h1, _⟩ := stepHandlerReturn_some s s1 i h
    rw [hw] at h1
    rcases i with _ | _ | i <;> simp at h1
  case workerDecr i =>
    obtain ⟨h1, _⟩ := stepWorkerDecr_some s s1 i h
    rw [hw] at h1
    rcases i with _ | _ | i <;> simp at h1
  case workerTakeSig i =>
    obtain ⟨_, _, _, h1, _⟩ := stepWorkerTakeSig_some s s1 i h
    rw [he] at h1; simp at h1
  case waitReturn =>
    obtain ⟨h1, _⟩ := stepWaitReturn_some s s1 h
    rw [hw] at h1; simp [WorkerPc.isReturned] at h1
  case heartbeat k b =>
    obtain ⟨_, _, _, _, h1, _⟩ := stepHeartbeat_some 2 s s1 k b h
    rw [hms] at h1; simp at h1

/-- C2 (the code at the failing input): with `MaxMessages = 2` the first receive fails with
`errThrottled`; the poller sends it once and returns; worker 0 takes it and returns it. From
then on, whatever happens, no action of the poller or of a worker is enabled except the
passage of time and the caller cancelling: worker 1 stays in its `select`, `g.Wait()` never
returns and `Subscribe` returns nothing, although no further receive is issued. -/
theorem receive_error_blocks_worker :
    exec 2 (init 2) runReceiveError = some (stateAfter 2 runReceiveError) ∧
    ∀ (as : List Action) (s : Session), exec 2 (stateAfter 2 runReceiveError) as = some s →
      s.workers = [WorkerPc.returned (some errThrottled), WorkerPc.select] ∧
      s.result = none ∧ s.receives = 1 ∧
      ∀ a, Action.isProgress a = true → step 2 s a = none := by
  refine ⟨by decide, ?_⟩
  intro as s h
  have hP : StuckAfterError s :=
    exec_induction 2 (fun _ => True) StuckAfterError
      (fun t a t1 _ hP hs => stuckAfterError_step t t1 a hP hs) as _ s
      (fun _ _ => trivial) (by unfold StuckAfterError; decide) h
  refine ⟨hP.2.1, hP.2.2.2.2.2.1, hP.2.2.2.2.2.2, ?_⟩
  intro a ha
  cases ho : step 2 s a with
  | none => rfl
  | some s1 =>
    have hP1 := stuckAfterError_step s s1 a hP ho
    cases a <;> simp only [step] at ho <;> simp [Action.isProgress] at ha
    case pollSelect =>
      obtain ⟨h1, _⟩ := stepPollSelect_some 2 s s1 ho
      rw [hP.1] at h1; simp at h1
    case recvOk batch =>
      obtain ⟨h1, _⟩ := stepRecv_some s s1 _ ho
      rw [hP.1] at h1; simp at h1
    case recvFail e =>
      obtain ⟨h1, _⟩ := stepRecv_some s s1 _ ho
      rw [hP.1] at h1; simp at h1
    case pollSendErr =>
      obtain ⟨_, h1, _⟩ := stepPollSendErr_some 2 s s1 ho
      rw [hP.1] at h1; simp at h1
    case pollRange =>
      obtain ⟨_, _, h1, _⟩ | ⟨h1, _⟩ := stepPollRange_some s s1 ho <;>
        (rw [hP.1] at h1; simp at h1)
    case pollPush =>
      obtain ⟨_, _, h1, _⟩ := stepPollPush_some 2 s s1 ho
      rw [hP.1] at h1; simp at h1
    case pollNil =>
      obtain ⟨_, h1, _⟩ := stepPollNil_some 2 s s1 ho
      rw [hP.1] at h1; simp at h1
    case workerTakeMsg i =>
      obtain ⟨_, _, _, h1, _⟩ := stepWorkerTakeMsg_some s s1 i ho
      rw [hP.2.2.1] at h1; simp at h1
    case handlerReturn i =>
      obtain ⟨_, h1, _⟩ := stepHandlerReturn_some s s1 i ho
      rw [hP.2.1] at h1
      rcases i with _ | _ | i <;> simp at h1
    case workerDecr i =>
      obtain ⟨h1, _⟩ := stepWorkerDecr_some s s1 i ho
      rw [hP.2.1] at h1
      rcases i with _ | _ | i <;> simp at h1
    case workerTakeSig i =>
      obtain ⟨_, _, _, h1, _⟩ := stepWorkerTakeSig_some s s1 i ho
      rw [hP.2.2.2.1] at h1; simp at h1
    case waitReturn =>
      obtain ⟨h1, _⟩ := stepWaitReturn_some s s1 ho
      rw [hP.2.1] at h1; simp [WorkerPc.isReturned] at h1

/-! ## Graceful shutdown -/

theorem sum_map_set {α : Type} (f : α → Nat) (l : List α) (i : Nat) (x old : α)
    (h : l.get? i = some old) :
    ((l.set i x).map f).sum + f old = (l.map f).sum + f x := by
  induction l generalizing i with
  | nil => simp at h
  | cons y ys ih =>
    cases i with
    | zero =>
      simp only [List.get?_cons_zero, Option.some.injEq] at h
      subst h
      simp only [List.set_cons_zero, List.map_cons, List.sum_cons]
      omega
    | succ j =>
      have hj := ih j (by simpa using h)
      simp only [List.set_cons_succ, List.map_cons, List.sum_cons]
      omega

theorem gracefulInv_frame (N : Nat) (s s1 : Session) (hI : GracefulInv N s)
    (hw : s1.workers = s.workers) (he : s1.errSub = s.errSub) (hg : s1.gErr = s.gErr)
    (hr : s1.result = s.result) (hn : s1.nilsSent = s.nilsSent)
    (hp : NilsSentAt N s1.poller s.nilsSent) : GracefulInv N s1 := by
  obtain ⟨h1, h2, h3, h4, h5, h6, _⟩ := hI
  refine ⟨by rw [hw]; exact h1, by rw [he]; exact h2, by rw [hw]; exact h3,
    by rw [hg]; exact h4, by rw [hr]; exact h5, ?_, by rw [hn]; exact hp⟩
  unfold returnedCount at h6 ⊢
  rw [hw, he, hn]
  exact h6

theorem gracefulInv_set (N : Nat) (s s1 : Session) (i : Nat) (old new : WorkerPc)
    (hI : GracefulInv N s) (hget : s.workers.get? i = some old)
    (hold : old.isReturned = false) (hnew : new.isReturned = false)
    (hw : s1.workers = s.workers.set i new) (he : s1.errSub = s.errSub)
    (hg : s1.gErr = s.gErr) (hr : s1.result = s.result) (hn : s1.nilsSent = s.nilsSent)
    (hp : s1.poller = s.poller) : GracefulInv N s1 := by
  obtain ⟨h1, h2, h3, h4, h5, h6, h7⟩ := hI
  refine ⟨by rw [hw]; simpa using h1, by rw [he]; exact h2, ?_,
    by rw [hg]; exact h4, by rw [hr]; exact h5, ?_, by rw [hn, hp]; exact h7⟩
  · intro w hmem r hwr
    rw [hw] at hmem
    rcases List.mem_or_eq_of_mem_set hmem with hmem | rfl
    · exact h3 w hmem r hwr
    · rw [hwr] at hnew
      simp [WorkerPc.isReturned] at hnew
  · have hs := sum_map_set WorkerPc.returnedBit s.workers i new old hget
    have e1 : old.returnedBit = 0 := by simp [WorkerPc.returnedBit, hold]
    have e2 : new.returnedBit = 0 := by simp [WorkerPc.returnedBit, hnew]
    unfold returnedCount at h6 ⊢
    rw [hw, he, hn]
    omega

theorem gracefulInv_step (N : Nat) (s s1 : Session) (a : Action)
    (hok : Action.errFree a = true) (hI : GracefulInv N s) (h : step N s a = some s1) :
    GracefulInv N s1 := by
  cases a <;> simp only [step] at h
  case tick d =>
    simp only [Option.some.injEq] at h; subst h
    exact gracefulInv_frame N s _ hI rfl rfl rfl rfl rfl hI.2.2.2.2.2.2
  case ctxCancel =>
    simp only [Option.some.injEq] at h; subst h
    exact gracefulInv_frame N s _ hI rfl rfl rfl rfl rfl hI.2.2.2.2.2.2
  case pollSelect =>
    have h7 := hI.2.2.2.2.2.2
    obtain ⟨hp, ⟨_, rfl⟩ | ⟨_, _, rfl⟩⟩ := stepPollSelect_some N s s1 h
    · rw [hp] at h7
      exact gracefulInv_frame N s _ hI rfl rfl rfl rfl rfl ⟨h7, Nat.zero_le N⟩
    · rw [hp] at h7
      exact gracefulInv_frame N s _ hI rfl rfl rfl rfl rfl h7
  case recvOk batch =>
    have h7 := hI.2.2.2.2.2.2
    obtain ⟨hp, ⟨_, hr, rfl⟩ | ⟨_, hr, rfl⟩⟩ := stepRecv_some s s1 _ h
    · rw [hp] at h7
      exact gracefulInv_frame N s _ hI rfl rfl rfl rfl rfl h7
    · simp at hr
  case recvFail e => simp [Action.errFree] at hok
  case pollSendErr => simp [Action.errFree] at hok
  case pollRange =>
    have h7 := hI.2.2.2.2.2.2
    obtain ⟨_, _, hp, rfl⟩ | ⟨hp, rfl⟩ := stepPollRange_some s s1 h
    · rw [hp] at h7
      exact gracefulInv_frame N s _ hI rfl rfl rfl rfl rfl h7
    · rw [hp] at h7
      exact gracefulInv_frame N s _ hI rfl rfl rfl rfl rfl h7
  case pollPush =>
    have h7 := hI.2.2.2.2.2.2
    obtain ⟨_, _, hp, _, rfl⟩ := stepPollPush_some N s s1 h
    rw [hp] at h7
    exact gracefulInv_frame N s _ hI rfl rfl rfl rfl rfl h7
  case pollNil =>
    obtain ⟨h1, h2, h3, h4, h5, h6, h7⟩ := hI
    obtain ⟨i, hp, ⟨hi, _, rfl⟩ | ⟨hi, rfl⟩⟩ := stepPollNil_some N s s1 h
    · rw [hp] at h7
      refine ⟨h1, ?_, h3, h4, h5, ?_, ?_⟩
      · intro sig hsig
        rcases List.mem_append.mp hsig with hsig | hsig
        · exact h2 sig hsig
        · simpa using hsig
      · unfold returnedCount at h6 ⊢
        simp only [List.length_append, List.length_singleton]
        omega
      · obtain ⟨h7a, _⟩ := h7
        exact ⟨by simp only; omega, hi⟩
    · rw [hp] at h7
      refine ⟨h1, h2, h3, h4, h5, h6, ?_⟩
      show s.nilsSent = N
      obtain ⟨h7a, h7b⟩ := h7
      omega
  case workerTakeMsg i =>
    obtain ⟨k, rest, hw, _, rfl⟩ := stepWorkerTakeMsg_some s s1 i h
    exact gracefulInv_set N s _ i _ (WorkerPc.handler k) hI hw rfl rfl rfl rfl rfl rfl rfl rfl
  case handlerAck i r =>
    obtain ⟨_, _, _, _, _, rfl⟩ := stepHandlerAck_some s s1 i r h
    exact gracefulInv_frame N s _ hI rfl rfl rfl rfl rfl hI.2.2.2.2.2.2
  case handlerReturn i =>
    obtain ⟨_, hw, rfl⟩ := stepHandlerReturn_some s s1 i h
    exact gracefulInv_set N s _ i _ WorkerPc.decrement hI hw rfl rfl rfl rfl rfl rfl rfl rfl
  case workerDecr i =>
    obtain ⟨hw, rfl⟩ := stepWorkerDecr_some s s1 i h
    exact gracefulInv_set N s _ i _ WorkerPc.select hI hw rfl rfl rfl rfl rfl rfl rfl rfl
  case workerTakeSig i =>
    obtain ⟨h1, h2, h3, h4, h5, h6, h7⟩ := hI
    obtain ⟨sig, rest, hw, hm, ⟨e, hsig, _, rfl⟩ | ⟨_, rfl⟩⟩ := stepWorkerTakeSig_some s s1 i h
    · have := h2 sig (by rw [hm]; simp)
      rw [hsig] at this
      simp at this
    · have hsn : sig = none := h2 sig (by rw [hm]; simp)
      subst hsn
      refine ⟨by simpa using h1, ?_, ?_, h4, h5, ?_, h7⟩
      · intro sig hsig
        exact h2 sig (by rw [hm]; exact List.mem_cons_of_mem _ hsig)
      · intro w hmem r hwr
        rcases List.mem_or_eq_of_mem_set hmem with hmem | rfl
        · exact h3 w hmem r hwr
        · simp only [WorkerPc.returned.injEq] at hwr
          exact hwr.symm
      · have hs := sum_map_set WorkerPc.returnedBit s.workers i
          (WorkerPc.returned none) WorkerPc.select hw
        have e1 : WorkerPc.returnedBit WorkerPc.select = 0 := rfl
        have e2 : WorkerPc.returnedBit (WorkerPc.returned none) = 1 := rfl
        unfold returnedCount at h6 ⊢
        rw [hm] at h6
        simp only [List.length_cons] at h6
        simp only
        omega
  case waitReturn =>
    obtain ⟨_, _, rfl⟩ := stepWaitReturn_some s s1 h
    obtain ⟨h1, h2, h3, h4, h5, h6, h7⟩ := hI
    refine ⟨h1, h2, h3, h4, ?_, h6, h7⟩
    intro r hr
    simp only [Option.some.injEq] at hr
    rw [← hr]
    exact h4
  case heartbeat k b =>
    obtain ⟨_, _, _, ch, _, hb, rfl⟩ := stepHeartbeat_some N s s1 k b h
    rcases heartbeatStep_channel N _ _ _ _ _ _ hb with hc | ⟨_, _, _, _, hsend⟩
    · subst hc
      exact gracefulInv_frame N s _ hI rfl rfl rfl rfl rfl hI.2.2.2.2.2.2
    · subst hsend
      simp [Action.errFree] at hok

theorem gracefulInv_init (N : Nat) : GracefulInv N (init N) := by
  refine ⟨by simp [init], by simp [init], ?_, rfl, by simp [init], ?_, rfl⟩
  · intro w hw r hwr
    have := List.eq_of_mem_replicate hw
    rw [this] at hwr
    simp at hwr
  · unfold returnedCount
    simp [init, WorkerPc.returnedBit, WorkerPc.isReturned]

theorem reachable_gracefulInv (N : Nat) (as : List Action) (s : Session)
    (hfree : ∀ a ∈ as, Action.errFree a = true) (h : exec N (init N) as = some s) :
    GracefulInv N s :=
  exec_induction N (fun a => Action.errFree a = true) (GracefulInv N)
    (fun t a t1 hok hP hs => gracefulInv_step N t t1 a hok hP hs) as (init N) s hfree
    (gracefulInv_init N) h

theorem returnedBit_le_one (w : WorkerPc) : w.returnedBit ≤ 1 := by
  unfold WorkerPc.returnedBit
  split <;> omega

theorem sum_returnedBit_le (l : List WorkerPc) : (l.map WorkerPc.returnedBit).sum ≤ l.length := by
  induction l with
  | nil => simp
  | cons w ws ih =>
    have := returnedBit_le_one w
    simp only [List.map_cons, List.sum_cons, List.length_cons]
    omega

theorem all_returned_of_sum (l : List WorkerPc)
    (h : (l.map WorkerPc.returnedBit).sum = l.length) : ∀ w ∈ l, w.isReturned = true := by
  induction l with
  | nil => intro w hw; simp at hw
  | cons x xs ih =>
    have h1 := returnedBit_le_one x
    have h2 := sum_returnedBit_le xs
    simp only [List.map_cons, List.sum_cons, List.length_cons] at h
    intro w hw
    rcases List.mem_cons.mp hw with rfl | hw
    · have hb : w.returnedBit = 1 := by omega
      unfold WorkerPc.returnedBit at hb
      by_cases hr : w.isReturned = true
      · exact hr
      · simp [hr] at hb
    · exact ih (by omega) w hw

theorem no_returned_of_sum_zero (l : List WorkerPc)
    (h : (l.map WorkerPc.returnedBit).sum = 0) : ∀ w ∈ l, w.isReturned = false := by
  induction l with
  | nil => intro w hw; simp at hw
  | cons x xs ih =>
    simp only [List.map_cons, List.sum_cons] at h
    intro w hw
    rcases List.mem_cons.mp hw with rfl | hw
    · have hb : w.returnedBit = 0 := by omega
      unfold WorkerPc.returnedBit at hb
      by_cases hr : w.isReturned = true
      · simp [hr] at hb
      · simpa using hr
    · exact ih (by omega) w hw

/-- A worker that has not returned and stands in a handler or at the decrement can step;
one at its `select` can step when one of the two channels is non-empty. -/
theorem worker_blocked (N : Nat) (s : Session) (j : Nat) (w : WorkerPc)
    (hq : ∀ a, Action.isProgress a = true → step N s a = none)
    (hj : s.workers.get? j = some w) (hw : w.isReturned = false) :
    w = WorkerPc.select ∧ s.message = [] ∧ s.errSub = [] := by
  cases w with
  | returned r => simp [WorkerPc.isReturned] at hw
  | handler k =>
    have := hq (Action.handlerReturn j) rfl
    simp only [step, stepHandlerReturn, hj] at this
    simp at this
  | decrement =>
    have := hq (Action.workerDecr j) rfl
    simp only [step, stepWorkerDecr, hj] at this
    simp at this
  | select =>
    refine ⟨rfl, ?_, ?_⟩
    · cases hm : s.message with
      | nil => rfl
      | cons k rest =>
        have := hq (Action.workerTakeMsg j) rfl
        simp only [step, stepWorkerTakeMsg, hj, hm] at this
        simp at this
    · cases hm : s.errSub with
      | nil => rfl
      | cons sig rest =>
        have := hq (Action.workerTakeSig j) rfl
        simp only [step, stepWorkerTakeSig, hj, hm] at this
        split at this <;> simp at this

theorem graceful_quiescent (N : Nat) (hN : 1 ≤ N) (s : Session) (hI : GracefulInv N s)
    (hc : s.gCtxDone = true)
    (hq : ∀ a, Action.isProgress a = true → step N s a = none) :
    s.poller = PollerPc.returned ∧ s.nilsSent = N ∧
    s.workers = List.replicate N (WorkerPc.returned none) ∧ s.result = some none := by
  obtain ⟨h1, h2, h3, h4, h5, h6, h7⟩ := hI
  have hpoll : s.poller = PollerPc.returned := by
    cases hp : s.poller with
    | returned => rfl
    | top =>
      have := hq Action.pollSelect rfl
      simp [step, stepPollSelect, hp, hc] at this
    | receiving =>
      have := hq (Action.recvOk []) rfl
      simp [step, stepRecv, hp] at this
    | sendErr e =>
      rw [hp] at h7
      exact absurd h7 (by simp [NilsSentAt])
    | sendNils i =>
      rw [hp] at h7
      obtain ⟨h7a, h7b⟩ := h7
      have := hq Action.pollNil rfl
      by_cases hi : i < N
      · have hl : s.errSub.length < N := by omega
        simp [step, stepPollNil, hp, hi, hl] at this
      · simp [step, stepPollNil, hp, hi] at this
    | pushing pending rest =>
      rw [hp] at h7
      have h70 : s.nilsSent = 0 := h7
      cases pending with
      | none =>
        have := hq Action.pollRange rfl
        cases rest <;> simp [step, stepPollRange, hp] at this
      | some k =>
        have hpush := hq Action.pollPush rfl
        by_cases hl : s.message.length < N
        · simp [step, stepPollPush, hp, hl] at hpush
        · have hcount : (s.workers.map WorkerPc.returnedBit).sum = 0 := by
            unfold returnedCount at h6
            omega
          cases hws : s.workers with
          | nil => rw [hws] at h1; simp at h1; omega
          | cons w ws =>
            have hw0 : s.workers.get? 0 = some w := by rw [hws]; rfl
            have hnr := no_returned_of_sum_zero s.workers hcount w (by rw [hws]; simp)
            obtain ⟨_, hm, _⟩ := worker_blocked N s 0 w hq hw0 hnr
            rw [hm] at hl
            simp at hl
            omega
  rw [hpoll] at h7
  have h7N : s.nilsSent = N := h7
  have hall : ∀ w ∈ s.workers, w.isReturned = true := by
    by_contra hcon
    push_neg at hcon
    obtain ⟨w, hw, hnr⟩ := hcon
    have hnr2 : w.isReturned = false := by simpa using hnr
    obtain ⟨j, hj⟩ := List.get?_of_mem hw
    obtain ⟨_, _, he⟩ := worker_blocked N s j w hq hj hnr2
    have hsum : (s.workers.map WorkerPc.returnedBit).sum = s.workers.length := by
      unfold returnedCount at h6
      rw [he] at h6
      simp only [List.length_nil, Nat.add_zero] at h6
      omega
    have := all_returned_of_sum s.workers hsum w hw
    rw [hnr2] at this
    exact absurd this (by simp)
  have hworkers : s.workers = List.replicate N (WorkerPc.returned none) := by
    apply List.eq_replicate_iff.mpr
    refine ⟨h1, ?_⟩
    intro w hw
    have hr := hall w hw
    cases w with
    | returned r => rw [h3 _ hw r rfl]
    | select => simp [WorkerPc.isReturned] at hr
    | handler k => simp [WorkerPc.isReturned] at hr
    | decrement => simp [WorkerPc.isReturned] at hr
  refine ⟨hpoll, h7N, hworkers, ?_⟩
  have hwait := hq Action.waitReturn rfl
  cases hr : s.result with
  | some r => rw [h5 r hr]
  | none =>
    have hall2 : s.workers.all WorkerPc.isReturned = true := List.all_eq_true.mpr hall
    simp [step, stepWaitReturn, hall2, hr] at hwait

theorem step_leftLoop (N : Nat) (s s1 : Session) (a : Action)
    (hp : s.poller.leftLoop = true) (h : step N s a = some s1) :
    s1.poller.leftLoop = true ∧ s1.receives = s.receives := by
  cases a <;> simp only [step] at h
  case tick d => simp only [Option.some.injEq] at h; subst h; exact ⟨hp, rfl⟩
  case ctxCancel => simp only [Option.some.injEq] at h; subst h; exact ⟨hp, rfl⟩
  case pollSelect =>
    obtain ⟨h1, _⟩ := stepPollSelect_some N s s1 h
    rw [h1] at hp; simp [PollerPc.leftLoop] at hp
  case recvOk batch =>
    obtain ⟨h1, _⟩ := stepRecv_some s s1 _ h
    rw [h1] at hp; simp [PollerPc.leftLoop] at hp
  case recvFail e =>
    obtain ⟨h1, _⟩ := stepRecv_some s s1 _ h
    rw [h1] at hp; simp [PollerPc.leftLoop] at hp
  case pollSendErr =>
    obtain ⟨_, h1, _⟩ := stepPollSendErr_some N s s1 h
    rw [h1] at hp; simp [PollerPc.leftLoop] at hp
  case pollRange =>
    obtain ⟨_, _, h1, _⟩ | ⟨h1, _⟩ := stepPollRange_some s s1 h <;>
      (rw [h1] at hp; simp [PollerPc.leftLoop] at hp)
  case pollPush =>
    obtain ⟨_, _, h1, _⟩ := stepPollPush_some N s s1 h
    rw [h1] at hp; simp [PollerPc.leftLoop] at hp
  case pollNil =>
    obtain ⟨_, _, ⟨_, _, rfl⟩ | ⟨_, rfl⟩⟩ := stepPollNil_some N s s1 h <;> exact ⟨rfl, rfl⟩
  case workerTakeMsg i =>
    obtain ⟨_, _, _, _, rfl⟩ := stepWorkerTakeMsg_some s s1 i h; exact ⟨hp, rfl⟩
  case handlerAck i r =>
    obtain ⟨_, _, _, _, _, rfl⟩ := stepHandlerAck_some s s1 i r h; exact ⟨hp, rfl⟩
  case handlerReturn i =>
    obtain ⟨_, _, rfl⟩ := stepHandlerReturn_some s s1 i h; exact ⟨hp, rfl⟩
  case workerDecr i =>
    obtain ⟨_, rfl⟩ := stepWorkerDecr_some s s1 i h; exact ⟨hp, rfl⟩
  case workerTakeSig i =>
    obtain ⟨_, _, _, _, ⟨_, _, _, rfl⟩ | ⟨_, rfl⟩⟩ := stepWorkerTakeSig_some s s1 i h <;>
      exact ⟨hp, rfl⟩
  case waitReturn =>
    obtain ⟨_, _, rfl⟩ := stepWaitReturn_some s s1 h; exact ⟨hp, rfl⟩
  case heartbeat k b =>
    obtain ⟨_, _, _, _, _, _, rfl⟩ := stepHeartbeat_some N s s1 k b h; exact ⟨hp, rfl⟩

theorem exec_leftLoop (N : Nat) (as : List Action) (s s1 : Session)
    (hp : s.poller.leftLoop = true) (h : exec N s as = some s1) :
    s1.receives = s.receives :=
  (exec_induction N (fun _ => True)
    (fun t => t.poller.leftLoop = true ∧ t.receives = s.receives)
    (fun t a t1 _ hP hs =>
      ⟨(step_leftLoop N t t1 a hP.1 hs).1, (step_leftLoop N t t1 a hP.1 hs).2.trans hP.2⟩)
    as s s1 (fun _ _ => trivial) ⟨hp, rfl⟩ h).2

/-! ## Termination after cancellation -/

theorem step_gCtxDone (N : Nat) (s s1 : Session) (a : Action)
    (hc : s.gCtxDone = true) (h : step N s a = some s1) : s1.gCtxDone = true := by
  cases a <;> simp only [step] at h
  case tick d => simp only [Option.some.injEq] at h; subst h; exact hc
  case ctxCancel => simp only [Option.some.injEq] at h; subst h; rfl
  case pollSelect =>
    obtain ⟨_, ⟨_, rfl⟩ | ⟨_, _, rfl⟩⟩ := stepPollSelect_some N s s1 h <;> exact hc
  case recvOk batch =>
    obtain ⟨_, ⟨_, _, rfl⟩ | ⟨_, _, rfl⟩⟩ := stepRecv_some s s1 _ h <;> exact hc
  case recvFail e =>
    obtain ⟨_, ⟨_, _, rfl⟩ | ⟨_, _, rfl⟩⟩ := stepRecv_some s s1 _ h <;> exact hc
  case pollSendErr =>
    obtain ⟨_, _, _, rfl⟩ := stepPollSendErr_some N s s1 h; exact hc
  case pollRange =>
    obtain ⟨_, _, _, rfl⟩ | ⟨_, rfl⟩ := stepPollRange_some s s1 h <;> exact hc
  case pollPush =>
    obtain ⟨_, _, _, _, rfl⟩ := stepPollPush_some N s s1 h; exact hc
  case pollNil =>
    obtain ⟨_, _, ⟨_, _, rfl⟩ | ⟨_, rfl⟩⟩ := stepPollNil_some N s s1 h <;> exact hc
  case workerTakeMsg i =>
    obtain ⟨_, _, _, _, rfl⟩ := stepWorkerTakeMsg_some s s1 i h; exact hc
  case handlerAck i r =>
    obtain ⟨_, _, _, _, _, rfl⟩ := stepHandlerAck_some s s1 i r h; exact hc
  case handlerReturn i =>
    obtain ⟨_, _, rfl⟩ := stepHandlerReturn_some s s1 i h; exact hc
  case workerDecr i =>
    obtain ⟨_, rfl⟩ := stepWorkerDecr_some s s1 i h; exact hc
  case workerTakeSig i =>
    obtain ⟨_, _, _, _, ⟨_, _, _, rfl⟩ | ⟨_, rfl⟩⟩ := stepWorkerTakeSig_some s s1 i h
    · rfl
    · exact hc
  case waitReturn =>
    obtain ⟨_, _, rfl⟩ := stepWaitReturn_some s s1 h; rfl
  case heartbeat k b =>
    obtain ⟨_, _, _, _, _, _, rfl⟩ := stepHeartbeat_some N s s1 k b h; exact hc

theorem env_step_rank (N : Nat) (s s1 : Session) (a : Action)
    (ha : Action.isProgress a = false) (h : step N s a = some s1) :
    recvPhase s1 = recvPhase s ∧ stepsLeft N s1 = stepsLeft N s := by
  cases a <;> simp only [step] at h <;> simp [Action.isProgress] at ha
  case tick d => simp only [Option.some.injEq] at h; subst h; exact ⟨rfl, rfl⟩
  case ctxCancel => simp only [Option.some.injEq] at h; subst h; exact ⟨rfl, rfl⟩
  case handlerAck i r =>
    obtain ⟨_, _, _, _, _, rfl⟩ := stepHandlerAck_some s s1 i r h; exact ⟨rfl, rfl⟩
  case heartbeat k b =>
    obtain ⟨_, _, _, _, _, _, rfl⟩ := stepHeartbeat_some N s s1 k b h; exact ⟨rfl, rfl⟩

theorem progress_step_rank (N : Nat) (s s1 : Session) (a : Action)
    (hc : s.gCtxDone = true) (ha : Action.isProgress a = true) (h : step N s a = some s1) :
    recvPhase s1 < recvPhase s ∨
      (recvPhase s1 = recvPhase s ∧ stepsLeft N s1 < stepsLeft N s) := by
  cases a <;> simp only [step] at h <;> simp [Action.isProgress] at ha
  case pollSelect =>
    obtain ⟨hp, ⟨_, rfl⟩ | ⟨hnc, _, rfl⟩⟩ := stepPollSelect_some N s s1 h
    · right
      simp only [recvPhase, stepsLeft, hp, PollerPc.weight]
      exact ⟨trivial, by omega⟩
    · rw [hc] at hnc; simp at hnc
  case recvOk batch =>
    obtain ⟨hp, ⟨_, _, rfl⟩ | ⟨_, _, rfl⟩⟩ := stepRecv_some s s1 _ h <;>
      (left; simp [recvPhase, hp])
  case recvFail e =>
    obtain ⟨hp, ⟨_, _, rfl⟩ | ⟨_, _, rfl⟩⟩ := stepRecv_some s s1 _ h <;>
      (left; simp [recvPhase, hp])
  case pollSendErr =>
    obtain ⟨_, hp, _, rfl⟩ := stepPollSendErr_some N s s1 h
    right
    simp only [recvPhase, stepsLeft, hp, PollerPc.weight]
    exact ⟨trivial, by omega⟩
  case pollRange =>
    obtain ⟨_, _, hp, rfl⟩ | ⟨hp, rfl⟩ := stepPollRange_some s s1 h
    · right
      simp only [recvPhase, stepsLeft, hp, PollerPc.weight, List.length_cons, Option.isSome]
      exact ⟨trivial, by simp; omega⟩
    · right
      simp only [recvPhase, stepsLeft, hp, PollerPc.weight, List.length_nil, Option.isSome]
      exact ⟨trivial, by simp⟩
  case pollPush =>
    obtain ⟨_, _, hp, _, rfl⟩ := stepPollPush_some N s s1 h
    right
    simp only [recvPhase, stepsLeft, hp, PollerPc.weight, List.length_append,
      List.length_singleton, Option.isSome]
    exact ⟨trivial, by simp; omega⟩
  case pollNil =>
    obtain ⟨_, hp, ⟨hi, _, rfl⟩ | ⟨hi, rfl⟩⟩ := stepPollNil_some N s s1 h
    · right
      simp only [recvPhase, stepsLeft, hp, PollerPc.weight]
      exact ⟨trivial, by omega⟩
    · right
      simp only [recvPhase, stepsLeft, hp, PollerPc.weight]
      exact ⟨trivial, by omega⟩
  case workerTakeMsg i =>
    obtain ⟨k, rest, hw, hm, rfl⟩ := stepWorkerTakeMsg_some s s1 i h
    have hs := sum_map_set WorkerPc.weight s.workers i (WorkerPc.handler k) _ hw
    simp only [WorkerPc.weight] at hs
    right
    simp only [recvPhase, stepsLeft, hm, List.length_cons]
    exact ⟨trivial, by omega⟩
  case handlerReturn i =>
    obtain ⟨k, hw, rfl⟩ := stepHandlerReturn_some s s1 i h
    have hs := sum_map_set WorkerPc.weight s.workers i WorkerPc.decrement _ hw
    simp only [WorkerPc.weight] at hs
    right
    simp only [recvPhase, stepsLeft]
    exact ⟨trivial, by omega⟩
  case workerDecr i =>
    obtain ⟨hw, rfl⟩ := stepWorkerDecr_some s s1 i h
    have hs := sum_map_set WorkerPc.weight s.workers i WorkerPc.select _ hw
    simp only [WorkerPc.weight] at hs
    right
    simp only [recvPhase, stepsLeft]
    exact ⟨trivial, by omega⟩
  case workerTakeSig i =>
    obtain ⟨sig, rest, hw, hm, ⟨_, _, _, rfl⟩ | ⟨_, rfl⟩⟩ := stepWorkerTakeSig_some s s1 i h
    · have hs := sum_map_set WorkerPc.weight s.workers i (WorkerPc.returned sig) _ hw
      simp only [WorkerPc.weight] at hs
      right
      simp only [recvPhase, stepsLeft]
      exact ⟨trivial, by omega⟩
    · have hs := sum_map_set WorkerPc.weight s.workers i (WorkerPc.returned sig) _ hw
      simp only [WorkerPc.weight] at hs
      right
      simp only [recvPhase, stepsLeft]
      exact ⟨trivial, by omega⟩
  case waitReturn =>
    obtain ⟨_, hr, rfl⟩ := stepWaitReturn_some s s1 h
    right
    simp only [recvPhase, stepsLeft, hr]
    exact ⟨trivial, by simp⟩

theorem exec_env_rank (N : Nat) (envs : List Action) (s s1 : Session)
    (henv : ∀ b ∈ envs, Action.isProgress b = false) (h : exec N s envs = some s1) :
    (s.gCtxDone = true → s1.gCtxDone = true) ∧ recvPhase s1 = recvPhase s ∧
      stepsLeft N s1 = stepsLeft N s :=
  exec_induction N (fun b => Action.isProgress b = false)
    (fun t => (s.gCtxDone = true → t.gCtxDone = true) ∧ recvPhase t = recvPhase s ∧
      stepsLeft N t = stepsLeft N s)
    (fun t a t1 ha hP hs =>
      ⟨fun hc => step_gCtxDone N t t1 a (hP.1 hc) hs,
       (env_step_rank N t t1 a ha hs).1.trans hP.2.1,
       (env_step_rank N t t1 a ha hs).2.trans hP.2.2⟩)
    envs s s1 henv ⟨id, rfl, rfl⟩ h

theorem progresses_rank (N : Nat) (s s1 : Session) (hc : s.gCtxDone = true)
    (h : Progresses N s1 s) :
    s1.gCtxDone = true ∧
    Prod.Lex (fun a b : Nat => a < b) (fun a b : Nat => a < b)
      (recvPhase s1, stepsLeft N s1) (recvPhase s, stepsLeft N s) := by
  obtain ⟨envs, a, henv, ha, hex⟩ := h
  rw [exec_append] at hex
  cases h1 : exec N s envs with
  | none => simp [h1] at hex
  | some s2 =>
    simp only [h1, Option.some_bind, exec] at hex
    cases h2 : step N s2 a with
    | none => simp [h2] at hex
    | some s3 =>
      simp only [h2, Option.some.injEq] at hex
      subst hex
      obtain ⟨hc2, hph, hst⟩ := exec_env_rank N envs s s2 henv h1
      refine ⟨step_gCtxDone N s2 s3 a (hc2 hc) h2, ?_⟩
      rcases progress_step_rank N s2 s3 a (hc2 hc) ha h2 with hlt | ⟨heq, hlt⟩
      · exact Prod.Lex.left _ _ (hph ▸ hlt)
      · rw [heq, hph]
        exact Prod.Lex.right _ (hst ▸ hlt)

theorem cancelled_acc (N : Nat) (s : Session) (hc : s.gCtxDone = true) :
    Acc (Progresses N) s := by
  have wf : WellFounded (Prod.Lex (fun a b : Nat => a < b) (fun a b : Nat => a < b)) :=
    WellFounded.prod_lex wellFounded_lt wellFounded_lt
  have key : ∀ p : Nat × Nat, ∀ t : Session, t.gCtxDone = true →
      (recvPhase t, stepsLeft N t) = p → Acc (Progresses N) t := by
    intro p
    induction p using wf.induction with
    | _ p ih =>
      intro t ht hp
      refine Acc.intro t ?_
      intro t1 hprog
      obtain ⟨hc1, hlex⟩ := progresses_rank N t t1 ht hprog
      exact ih _ (hp ▸ hlex) t1 hc1 rfl
  exact key _ s hc rfl

theorem finished_no_progress (N : Nat) (s : Session) (hp : s.poller = PollerPc.returned)
    (hw : s.workers.all WorkerPc.isReturned = true) (hr : s.result.isSome = true) :
    ∀ a, Action.isProgress a = true → step N s a = none := by
  intro a ha
  cases ho : step N s a with
  | none => rfl
  | some s1 =>
    cases a <;> simp only [step] at ho <;> simp [Action.isProgress] at ha
    case pollSelect =>
      obtain ⟨h1, _⟩ := stepPollSelect_some N s s1 ho
      rw [hp] at h1; simp at h1
    case recvOk batch =>
      obtain ⟨h1, _⟩ := stepRecv_some s s1 _ ho
      rw [hp] at h1; simp at h1
    case recvFail e =>
      obtain ⟨h1, _⟩ := stepRecv_some s s1 _ ho
      rw [hp] at h1; simp at h1
    case pollSendErr =>
      obtain ⟨_, h1, _⟩ := stepPollSendErr_some N s s1 ho
      rw [hp] at h1; simp at h1
    case pollRange =>
      obtain ⟨_, _, h1, _⟩ | ⟨h1, _⟩ := stepPollRange_some s s1 ho <;>
        (rw [hp] at h1; simp at h1)
    case pollPush =>
      obtain ⟨_, _, h1, _⟩ := stepPollPush_some N s s1 ho
      rw [hp] at h1; simp at h1
    case pollNil =>
      obtain ⟨_, h1, _⟩ := stepPollNil_some N s s1 ho
      rw [hp] at h1; simp at h1
    case workerTakeMsg i =>
      obtain ⟨_, _, h1, _⟩ := stepWorkerTakeMsg_some s s1 i ho
      have := all_returned_get s.workers i _ hw h1
      simp [WorkerPc.isReturned] at this
    case handlerReturn i =>
      obtain ⟨_, h1, _⟩ := stepHandlerReturn_some s s1 i ho
      have := all_returned_get s.workers i _ hw h1
      simp [WorkerPc.isReturned] at this
    case workerDecr i =>
      obtain ⟨h1, _⟩ := stepWorkerDecr_some s s1 i ho
      have := all_returned_get s.workers i _ hw h1
      simp [WorkerPc.isReturned] at this
    case workerTakeSig i =>
      obtain ⟨_, _, h1, _⟩ := stepWorkerTakeSig_some s s1 i ho
      have := all_returned_get s.workers i _ hw h1
      simp [WorkerPc.isReturned] at this
    case waitReturn =>
      obtain ⟨_, h1, _⟩ := stepWaitReturn_some s s1 ho
      rw [h1] at hr; simp at hr

/-- C3: with `MaxMessages = N >= 1`, in a session in which no error is sent on the error
channel, once the context is cancelled: the poller's next `select` takes the cancellation
case without issuing a receive; after it has done so no receive call is ever issued again;
it sends nil signals, `N` in all by the time it returns; a worker inside a handler call
cannot return before the handler does; every worker that has returned returned nil and a
value returned by `Subscribe` is nil; the poller and the workers can take only finitely
many further steps (handlers returning); and when none is left the poller has returned
after `N` nil signals, all `N` workers have returned nil and `Subscribe` has returned nil. -/
theorem graceful_shutdown (N : Nat) (hN : 1 ≤ N) (as : List Action) (s : Session)
    (hfree : ∀ a ∈ as, Action.errFree a = true) (h : exec N (init N) as = some s)
    (hc : s.gCtxDone = true) :
    (s.poller = PollerPc.top →
      step N s Action.pollSelect = some { s with poller := PollerPc.sendNils 0 }) ∧
    (s.poller.leftLoop = true →
      ∀ bs s1, exec N s bs = some s1 → s1.receives = s.receives) ∧
    (s.nilsSent ≤ N ∧ (s.poller = PollerPc.returned → s.nilsSent = N)) ∧
    (∀ i k, s.workers.get? i = some (WorkerPc.handler k) →
      step N s (Action.workerTakeSig i) = none) ∧
    (∀ w ∈ s.workers, ∀ r, w = WorkerPc.returned r → r = none) ∧
    (∀ r, s.result = some r → r = none) ∧
    Acc (Progresses N) s ∧
    ((∀ a, Action.isProgress a = true → step N s a = none) →
      s.poller = PollerPc.returned ∧ s.nilsSent = N ∧
      s.workers = List.replicate N (WorkerPc.returned none) ∧ s.result = some none) := by
  have hI := reachable_gracefulInv N as s hfree h
  refine ⟨?_, ?_, ?_, ?_, hI.2.2.1, hI.2.2.2.2.1, cancelled_acc N s hc, ?_⟩
  · intro hp
    simp [step, stepPollSelect, hp, hc]
  · intro hp bs s1 hb
    exact exec_leftLoop N bs s s1 hp hb
  · have h7 := hI.2.2.2.2.2.2
    refine ⟨?_, ?_⟩
    · cases hp : s.poller <;> rw [hp] at h7 <;> simp only [NilsSentAt] at h7 <;> omega
    · intro hp
      rw [hp] at h7
      exact h7
  · intro i k hw
    simp only [step, stepWorkerTakeSig, hw]
  · intro hq
    exact graceful_quiescent N hN s hI hc hq

/-- A run with `MaxMessages = 1` that is cancelled during a handler call and ends with
no step left: `Subscribe` has returned nil. -/
theorem graceful_shutdown_witness :
    1 ≤ 1 ∧ (stateAfter 1 runGraceful).gCtxDone = true ∧
    Acc (Progresses 1) (stateAfter 1 runGraceful) ∧
    ((stateAfter 1 runGraceful).poller = PollerPc.returned ∧
      (stateAfter 1 runGraceful).nilsSent = 1 ∧
      (stateAfter 1 runGraceful).workers = List.replicate 1 (WorkerPc.returned none) ∧
      (stateAfter 1 runGraceful).result = some none) :=
  let h := graceful_shutdown 1 (by decide) runGraceful (stateAfter 1 runGraceful)
    (by decide) (by decide) (by decide)
  ⟨by decide, by decide, h.2.2.2.2.2.2.1,
   h.2.2.2.2.2.2.2 (finished_no_progress 1 (stateAfter 1 runGraceful) (by decide) (by decide)
     (by decide))⟩

/-! ## The ceiling check -/

theorem toInt32_id (n : Int) (h1 : -2147483648 ≤ n) (h2 : n < 2147483648) : toInt32 n = n := by
  unfold toInt32
  omega

theorem toInt32_range (n : Int) : -2147483648 ≤ toInt32 n ∧ toInt32 n < 2147483648 := by
  unfold toInt32
  omega

theorem step_count_range (N : Nat) (s s1 : Session) (a : Action)
    (hI : -2147483648 ≤ s.messageCount ∧ s.messageCount < 2147483648)
    (h : step N s a = some s1) :
    -2147483648 ≤ s1.messageCount ∧ s1.messageCount < 2147483648 := by
  cases a <;> simp only [step] at h
  case tick d => simp only [Option.some.injEq] at h; subst h; exact hI
  case ctxCancel => simp only [Option.some.injEq] at h; subst h; exact hI
  case pollSelect =>
    obtain ⟨_, ⟨_, rfl⟩ | ⟨_, _, rfl⟩⟩ := stepPollSelect_some N s s1 h <;> exact hI
  case recvOk batch =>
    obtain ⟨_, ⟨_, _, rfl⟩ | ⟨_, _, rfl⟩⟩ := stepRecv_some s s1 _ h <;> exact hI
  case recvFail e =>
    obtain ⟨_, ⟨_, _, rfl⟩ | ⟨_, _, rfl⟩⟩ := stepRecv_some s s1 _ h <;> exact hI
  case pollSendErr =>
    obtain ⟨_, _, _, rfl⟩ := stepPollSendErr_some N s s1 h; exact hI
  case pollRange =>
    obtain ⟨_, _, _, rfl⟩ | ⟨_, rfl⟩ := stepPollRange_some s s1 h
    · exact toInt32_range _
    · exact hI
  case pollPush =>
    obtain ⟨_, _, _, _, rfl⟩ := stepPollPush_some N s s1 h; exact hI
  case pollNil =>
    obtain ⟨_, _, ⟨_, _, rfl⟩ | ⟨_, rfl⟩⟩ := stepPollNil_some N s s1 h <;> exact hI
  case workerTakeMsg i =>
    obtain ⟨_, _, _, _, rfl⟩ := stepWorkerTakeMsg_some s s1 i h; exact hI
  case handlerAck i r =>
    obtain ⟨_, _, _, _, _, rfl⟩ := stepHandlerAck_some s s1 i r h; exact hI
  case handlerReturn i =>
    obtain ⟨_, _, rfl⟩ := stepHandlerReturn_some s s1 i h; exact hI
  case workerDecr i =>
    obtain ⟨_, rfl⟩ := stepWorkerDecr_some s s1 i h; exact toInt32_range _
  case workerTakeSig i =>
    obtain ⟨_, _, _, _, ⟨_, _, _, rfl⟩ | ⟨_, rfl⟩⟩ := stepWorkerTakeSig_some s s1 i h <;>
      exact hI
  case waitReturn =>
    obtain ⟨_, _, rfl⟩ := stepWaitReturn_some s s1 h; exact hI
  case heartbeat k b =>
    obtain ⟨_, _, _, _, _, _, rfl⟩ := stepHeartbeat_some N s s1 k b h; exact hI

theorem reachable_count_range (N : Nat) (as : List Action) (s : Session)
    (h : exec N (init N) as = some s) :
    -2147483648 ≤ s.messageCount ∧ s.messageCount < 2147483648 :=
  exec_induction N (fun _ => True)
    (fun t => -2147483648 ≤ t.messageCount ∧ t.messageCount < 2147483648)
    (fun t a t1 _ hP hs => step_count_range N t t1 a hP hs) as (init N) s
    (fun _ _ => trivial) (by simp [init]) h

theorem ceilingInv_frame (N : Nat) (s s1 : Session) (hI : CeilingInv N s)
    (hc : s1.messageCount = s.messageCount) (hp : s1.poller = s.poller)
    (hm : s1.message = s.message) (hw : s1.workers = s.workers) : CeilingInv N s1 := by
  obtain ⟨h1, h2, h3⟩ := hI
  refine ⟨?_, by rw [hc]; exact h2, by rw [hc, hp]; exact h3⟩
  unfold inFlight at h1 ⊢
  rw [hc, hp, hm, hw]
  exact h1

theorem ceilingInv_poller (N : Nat) (s s1 : Session) (hI : CeilingInv N s)
    (hc : s1.messageCount = s.messageCount) (hm : s1.message = s.message)
    (hw : s1.workers = s.workers) (hb : s1.poller.pendingBit = s.poller.pendingBit)
    (hp : BatchWithin N s1.poller s.messageCount) : CeilingInv N s1 := by
  obtain ⟨h1, h2, _⟩ := hI
  refine ⟨?_, by rw [hc]; exact h2, by rw [hc]; exact hp⟩
  unfold inFlight at h1 ⊢
  rw [hc, hb, hm, hw]
  exact h1

theorem ceilingInv_set (N : Nat) (s s1 : Session) (i : Nat) (old new : WorkerPc)
    (hI : CeilingInv N s) (hget : s.workers.get? i = some old)
    (hbit : new.inFlightBit = old.inFlightBit)
    (hc : s1.messageCount = s.messageCount) (hp : s1.poller = s.poller)
    (hm : s1.message = s.message) (hw : s1.workers = s.workers.set i new) :
    CeilingInv N s1 := by
  obtain ⟨h1, h2, h3⟩ := hI
  refine ⟨?_, by rw [hc]; exact h2, by rw [hc, hp]; exact h3⟩
  have hs := sum_map_set WorkerPc.inFlightBit s.workers i new old hget
  unfold inFlight at h1 ⊢
  rw [hc, hp, hm, hw, h1]
  rw [hbit] at hs
  have : (List.map WorkerPc.inFlightBit (s.workers.set i new)).sum =
      (List.map WorkerPc.inFlightBit s.workers).sum := by omega
  rw [this]

theorem ceilingInv_step (N : Nat) (hN : N < 2147483648) (s s1 : Session) (a : Action)
    (hb : Action.smallBatch a = true) (hI : CeilingInv N s) (h : step N s a = some s1) :
    CeilingInv N s1 := by
  have hNi : toInt32 (N : Int) = (N : Int) := toInt32_id _ (by omega) (by omega)
  cases a <;> simp only [step] at h
  case tick d =>
    simp only [Option.some.injEq] at h; subst h
    exact ceilingInv_frame N s _ hI rfl rfl rfl rfl
  case ctxCancel =>
    simp only [Option.some.injEq] at h; subst h
    exact ceilingInv_frame N s _ hI rfl rfl rfl rfl
  case pollSelect =>
    obtain ⟨hp, ⟨_, rfl⟩ | ⟨_, hne, rfl⟩⟩ := stepPollSelect_some N s s1 h
    · exact ceilingInv_poller N s _ hI rfl rfl rfl (by simp [hp, PollerPc.pendingBit]) trivial
    · refine ceilingInv_poller N s _ hI rfl rfl rfl (by simp [hp, PollerPc.pendingBit]) ?_
      show s.messageCount < (N : Int)
      have h2 := hI.2.1
      rw [hNi] at hne
      omega
  case recvOk batch =>
    obtain ⟨hp, ⟨b2, hr, rfl⟩ | ⟨_, hr, rfl⟩⟩ := stepRecv_some s s1 _ h
    · simp only [Except.ok.injEq] at hr
      subst hr
      have h3 := hI.2.2
      rw [hp] at h3
      refine ceilingInv_poller N s _ hI rfl rfl rfl (by simp [hp, PollerPc.pendingBit]) ?_
      exact ⟨by simpa [Action.smallBatch] using hb, fun _ => h3⟩
    · simp at hr
  case recvFail e =>
    obtain ⟨hp, ⟨_, hr, rfl⟩ | ⟨_, _, rfl⟩⟩ := stepRecv_some s s1 _ h
    · simp at hr
    · exact ceilingInv_poller N s _ hI rfl rfl rfl (by simp [hp, PollerPc.pendingBit]) trivial
  case pollSendErr =>
    obtain ⟨_, hp, _, rfl⟩ := stepPollSendErr_some N s s1 h
    exact ceilingInv_poller N s _ hI rfl rfl rfl (by simp [hp, PollerPc.pendingBit]) trivial
  case pollRange =>
    obtain ⟨m, rest, hp, rfl⟩ | ⟨hp, rfl⟩ := stepPollRange_some s s1 h
    · obtain ⟨h1, h2, h3⟩ := hI
      rw [hp] at h3
      obtain ⟨hlen, hlt⟩ := h3
      have hlt2 := hlt (by simp)
      have hrest : rest = [] := by
        simp only [List.length_cons] at hlen
        exact List.length_eq_zero.mp (by omega)
      have h0 : (0 : Int) ≤ s.messageCount := by rw [h1]; omega
      have hid : toInt32 (s.messageCount + 1) = s.messageCount + 1 :=
        toInt32_id _ (by omega) (by omega)
      refine ⟨?_, ?_, ?_⟩
      · unfold inFlight at h1 ⊢
        simp only [hid, PollerPc.pendingBit]
        rw [hp] at h1
        simp only [PollerPc.pendingBit] at h1
        omega
      · simp only [hid]; omega
      · exact hrest
    · exact ceilingInv_poller N s _ hI rfl rfl rfl (by simp [hp, PollerPc.pendingBit]) trivial
  case pollPush =>
    obtain ⟨k, rest, hp, _, rfl⟩ := stepPollPush_some N s s1 h
    obtain ⟨h1, h2, h3⟩ := hI
    rw [hp] at h3
    have hrest : rest = [] := h3
    refine ⟨?_, h2, ?_⟩
    · unfold inFlight at h1 ⊢
      rw [hp] at h1
      simp only [PollerPc.pendingBit, List.length_append, List.length_singleton] at h1 ⊢
      omega
    · subst hrest
      exact ⟨by simp, fun hne => absurd rfl hne⟩
  case pollNil =>
    obtain ⟨_, hp, ⟨_, _, rfl⟩ | ⟨_, rfl⟩⟩ := stepPollNil_some N s s1 h
    · exact ceilingInv_poller N s _ hI rfl rfl rfl (by simp [hp, PollerPc.pendingBit]) trivial
    · exact ceilingInv_poller N s _ hI rfl rfl rfl (by simp [hp, PollerPc.pendingBit]) trivial
  case workerTakeMsg i =>
    obtain ⟨k, rest, hw, hm, rfl⟩ := stepWorkerTakeMsg_some s s1 i h
    obtain ⟨h1, h2, h3⟩ := hI
    refine ⟨?_, h2, h3⟩
    have hs := sum_map_set WorkerPc.inFlightBit s.workers i (WorkerPc.handler k) _ hw
    simp only [WorkerPc.inFlightBit] at hs
    unfold inFlight at h1 ⊢
    rw [hm] at h1
    simp only [List.length_cons] at h1
    simp only
    omega
  case handlerAck i r =>
    obtain ⟨_, _, _, _, _, rfl⟩ := stepHandlerAck_some s s1 i r h
    exact ceilingInv_frame N s _ hI rfl rfl rfl rfl
  case handlerReturn i =>
    obtain ⟨k, hw, rfl⟩ := stepHandlerReturn_some s s1 i h
    exact ceilingInv_set N s _ i (WorkerPc.handler k) WorkerPc.decrement hI hw rfl rfl rfl rfl
      rfl
  case workerDecr i =>
    obtain ⟨hw, rfl⟩ := stepWorkerDecr_some s s1 i h
    obtain ⟨h1, h2, h3⟩ := hI
    have hs := sum_map_set WorkerPc.inFlightBit s.workers i WorkerPc.select _ hw
    simp only [WorkerPc.inFlightBit] at hs
    have hpos : (1 : Int) ≤ s.messageCount := by
      rw [h1]; unfold inFlight; omega
    have hid : toInt32 (s.messageCount - 1) = s.messageCount - 1 :=
      toInt32_id _ (by omega) (by omega)
    refine ⟨?_, ?_, ?_⟩
    · unfold inFlight at h1 ⊢
      simp only [hid]
      omega
    · simp only [hid]; omega
    · simp only [hid]
      cases hp : s.poller with
      | receiving =>
        rw [hp] at h3
        have h3a : s.messageCount < (N : Int) := h3
        show s.messageCount - 1 < (N : Int)
        omega
      | pushing pending rest =>
        rw [hp] at h3
        cases pending with
        | none =>
          obtain ⟨ha, hb2⟩ := h3
          exact ⟨ha, fun hne => by have := hb2 hne; omega⟩
        | some k => exact h3
      | top => trivial
      | sendErr e => trivial
      | sendNils j => trivial
      | returned => trivial
  case workerTakeSig i =>
    obtain ⟨sig, _, hw, _, ⟨_, _, _, rfl⟩ | ⟨_, rfl⟩⟩ := stepWorkerTakeSig_some s s1 i h
    · exact ceilingInv_set N s _ i WorkerPc.select (WorkerPc.returned sig) hI hw rfl rfl rfl rfl
        rfl
    · exact ceilingInv_set N s _ i WorkerPc.select (WorkerPc.returned sig) hI hw rfl rfl rfl rfl
        rfl
  case waitReturn =>
    obtain ⟨_, _, rfl⟩ := stepWaitReturn_some s s1 h
    exact ceilingInv_frame N s _ hI rfl rfl rfl rfl
  case heartbeat k b =>
    obtain ⟨_, _, _, _, _, _, rfl⟩ := stepHeartbeat_some N s s1 k b h
    exact ceilingInv_frame N s _ hI rfl rfl rfl rfl

theorem ceilingInv_init (N : Nat) : CeilingInv N (init N) := by
  refine ⟨?_, ?_, trivial⟩
  · unfold inFlight
    simp [init, PollerPc.pendingBit, WorkerPc.inFlightBit]
  · simp [init]

theorem reachable_ceilingInv (N : Nat) (hN : N < 2147483648) (as : List Action) (s : Session)
    (hb : ∀ a ∈ as, Action.smallBatch a = true) (h : exec N (init N) as = some s) :
    CeilingInv N s :=
  exec_induction N (fun a => Action.smallBatch a = true) (CeilingInv N)
    (fun t a t1 hok hP hs => ceilingInv_step N hN t t1 a hok hP hs) as (init N) s hb
    (ceilingInv_init N) h

/-- C9: with `MaxMessages = N >= 1` and a queue service that returns at most one message
per receive call (batch size `b = 1`, all that the request of lines 80-85 can obtain), in
every reachable state: the counter is at most `N - 1 + b`; the poller's `select` issues a
receive only when the counter is below `N`, and the counter stays below `N` while that
receive is in progress; and, for a ceiling that fits an `int32`, the counter is exactly the
number of messages counted and not yet discounted, so it never goes below 0. -/
theorem receive_below_ceiling (N : Nat) (_hN : 1 ≤ N) (as : List Action) (s : Session)
    (hb : ∀ a ∈ as, Action.smallBatch a = true) (h : exec N (init N) as = some s) :
    s.messageCount ≤ (N : Int) - 1 + 1 ∧
    (∀ s1, step N s Action.pollSelect = some s1 → s1.receives = s.receives + 1 →
      s.messageCount < (N : Int)) ∧
    (s.poller = PollerPc.receiving → s.messageCount < (N : Int)) ∧
    (N < 2147483648 → s.messageCount = (inFlight s : Int)) := by
  by_cases hN32 : N < 2147483648
  · obtain ⟨h1, h2, h3⟩ := reachable_ceilingInv N hN32 as s hb h
    have hNi : toInt32 (N : Int) = (N : Int) := toInt32_id _ (by omega) (by omega)
    refine ⟨by omega, ?_, ?_, fun _ => h1⟩
    · intro s1 hs hrec
      simp only [step] at hs
      obtain ⟨_, ⟨_, rfl⟩ | ⟨_, hne, rfl⟩⟩ := stepPollSelect_some N s s1 hs
      · simp at hrec
      · rw [hNi] at hne
        omega
    · intro hp
      rw [hp] at h3
      exact h3
  · obtain ⟨_, hr⟩ := reachable_count_range N as s h
    have hlt : s.messageCount < (N : Int) := by omega
    exact ⟨by omega, fun _ _ _ => hlt, fun _ => hlt, fun h32 => absurd h32 hN32⟩

/-- With `MaxMessages = 1`, after one message was received and handed to the worker the
counter is 1 and the poller cannot issue a receive. -/
theorem receive_below_ceiling_witness :
    1 ≤ 1 ∧ (stateAfter 1 runOneHandler).messageCount = 1 ∧
    (stateAfter 1 runOneHandler).messageCount ≤ ((1 : Nat) : Int) - 1 + 1 :=
  ⟨by decide, by decide,
   (receive_below_ceiling 1 (by decide) runOneHandler (stateAfter 1 runOneHandler)
      (by decide) (by decide)).1⟩

end Broker
